import Mathlib

/-!
Verification development for the mdpo-llm repository.

Strings are modelled as lists of characters (`Str := List Char`), documents as
lists of lines (each line a `Str` without a trailing newline, mirroring the
`line.rstrip("\n")` convention of `MarkdownProcessor.process_document`).
Python-specific character classes (`str.strip`, the regex classes used by
`BlockParser`) are embedded as explicit character predicates over the ASCII
range the code manipulates.
-/

/-- A Python string, as a list of characters. -/
abbrev Str := List Char

/-- Python whitespace characters, as tested by str.strip and the regex
class in the parser regexes. -/
def isPySpace (c : Char) : Bool :=
  c == ' ' || c == '\t' || c == '\n' || c == '\r' || c == '\x0b' || c == '\x0c'

/-- str.lstrip with no argument: drop leading whitespace. -/
def pyLstrip (s : Str) : Str := s.dropWhile isPySpace

/-- str.strip with no argument: drop leading and trailing whitespace. -/
def pyStrip (s : Str) : Str :=
  ((s.dropWhile isPySpace).reverse.dropWhile isPySpace).reverse

/-- line.rstrip with the single-character argument, as in
"line.rstrip(backslash-n)": drop trailing newline characters. -/
def pyRstripNl (s : Str) : Str :=
  (s.reverse.dropWhile (· == '\n')).reverse

/-- Join a list of lines with newline separators: the embedding of
"backslash-n".flatten(chunk) used by every chunk-building branch of the parser. -/
def joinNl (l : List Str) : Str := List.intercalate ['\n'] l

/-- msgstr.split on a single newline, the embedding of the
entry.msgstr.split call in DocumentReconstructor.rebuild_markdown. -/
def splitNl (s : Str) : List Str := s.splitOn '\n'

/-- The half-open slice lines[a:b] of a Python list. -/
def pySlice (l : List Str) (a b : Nat) : List Str := (l.drop a).take (b - a)

/-! ## Catalog entries (polib.POEntry, restricted to the fields the code reads) -/

/-- One PO catalog entry.  `fuzzy` embeds the test "fuzzy" in entry.flags;
`obsolete` embeds entry.obsolete. -/
structure Entry where
  msgctxt : Str
  msgid : Str
  msgstr : Str
  fuzzy : Bool
  obsolete : Bool
deriving DecidableEq, Repr

/-- A parsed block, as the dict produced by BlockParser.segment_markdown.
`kind` is the dict's "type" field, `endIdx` its "end" field;
`idx` is "idx_in_section". -/
structure Block where
  kind : Str
  text : Str
  start : Nat
  endIdx : Nat
  path : List Str
  idx : Nat
deriving DecidableEq, Repr

/-- next((e for e in po_file if e.msgctxt == ctx), None): the lookup used by
POManager.sync_po (note: it does not filter obsolete entries). -/
def findCtx (po : List Entry) (ctx : Str) : Option Entry :=
  po.find? (fun e => e.msgctxt == ctx)

/-- Replace the first entry satisfying p by f of it (embeds the in-place
mutation of the entry that the sync loop's lookup returned). -/
def updateFirst (p : Entry → Bool) (f : Entry → Entry) : List Entry → List Entry
  | [] => []
  | e :: rest => if p e then f e :: rest else e :: updateFirst p f rest

/-- One iteration of the block loop of POManager.sync_po: resolve the block
by context id and insert / silently update / mark fuzzy as the code does. -/
def syncBlock (skipTypes : List Str) (cid : Block → Str) (po : List Entry)
    (b : Block) : List Entry :=
  let ctx := cid b
  match findCtx po ctx with
  | none => po ++ [⟨ctx, b.text, [], false, false⟩]
  | some e =>
    if b.kind ∈ skipTypes then
      updateFirst (fun e => e.msgctxt == ctx) (fun e => { e with msgid := b.text }) po
    else if e.msgid ≠ b.text then
      updateFirst (fun e => e.msgctxt == ctx)
        (fun e => { e with msgid := b.text, fuzzy := true }) po
    else po

/-- POManager.sync_po: run the block loop, then mark every entry whose
msgctxt was not seen as obsolete and purge all obsolete entries
(the final filter keeps exactly the unmarked, non-obsolete entries). -/
def sync_po (skipTypes : List Str) (po : List Entry) (blocks : List Block)
    (cid : Block → Str) : List Entry :=
  let seen := blocks.map cid
  let po1 := blocks.foldl (syncBlock skipTypes cid) po
  po1.filter (fun e => decide (e.msgctxt ∈ seen) && !e.obsolete)

/-- POManager.get_unprocessed_entries. -/
def get_unprocessed_entries (po : List Entry) : List Entry :=
  po.filter (fun e => !e.obsolete && (e.msgstr.isEmpty || e.fuzzy))

/-- POManager.get_processing_stats, as the tuple
(total, processed, fuzzy, unprocessed, obsolete). -/
def get_processing_stats (po : List Entry) : Nat × Nat × Nat × Nat × Nat :=
  po.foldl
    (fun s e =>
      let (total, processed, fuzz, unprocessed, obs) := s
      if e.obsolete then (total, processed, fuzz, unprocessed, obs + 1)
      else if e.fuzzy then (total + 1, processed, fuzz + 1, unprocessed, obs)
      else if !e.msgstr.isEmpty then (total + 1, processed + 1, fuzz, unprocessed, obs)
      else (total + 1, processed, fuzz, unprocessed + 1, obs))
    (0, 0, 0, 0, 0)

/-- All entries of po that carry a given context id, in file order. -/
def entriesFor (po : List Entry) (ctx : Str) : List Entry :=
  po.filter (fun e => e.msgctxt == ctx)

/-! ## Parser (BlockParser) -/

/-- Python str.startswith, on character lists. -/
def startsWith (pre s : Str) : Bool := List.isPrefixOf pre s

/-- The backquote character (written via its code point). -/
def backquote : Char := Char.ofNat 96

/-- FENCE_RE.match(line.strip()): the stripped line begins with a
three-character code fence. -/
def isFence (line : Str) : Bool :=
  startsWith [backquote, backquote, backquote] (pyStrip line) ||
    startsWith ['~', '~', '~'] (pyStrip line)

/-- Length of the run of leading hash characters. -/
def hashRun (line : Str) : Nat := (line.takeWhile (· == '#')).length

/-- The heading regex: one to six leading hashes followed by at least one
whitespace character; yields the heading level.  (A run of seven or more
hashes matches no split of the pattern, hence no heading.) -/
def headingLevel (line : Str) : Option Nat :=
  let r := hashRun line
  if 1 ≤ r ∧ r ≤ 6 then
    match line.drop r with
    | c :: _ => if isPySpace c then some r else none
    | [] => none
  else none

/-- The horizontal-rule regex: at least three identical rule characters,
optionally separated and surrounded by whitespace and nothing else. -/
def isHr (line : Str) : Bool :=
  let t := line.filter (fun c => !isPySpace c)
  decide (3 ≤ t.length) &&
    (t.all (· == '-') || t.all (· == '*') || t.all (· == '_'))

/-- line.lstrip().startswith of the quote marker. -/
def isQuote (line : Str) : Bool := startsWith ['>'] (pyLstrip line)

/-- The list-item regex: optional indentation, a bullet or a digit run plus
a dot, then at least one whitespace character; yields the indentation width
and the ordered-ness. -/
def listMarker (line : Str) : Option (Nat × Bool) :=
  let ws := line.takeWhile isPySpace
  let rest := line.drop ws.length
  match rest with
  | c :: c2 :: _ =>
    if (c == '-' || c == '*' || c == '+') && isPySpace c2 then
      some (ws.length, false)
    else if c.isDigit then
      let ds := rest.takeWhile Char.isDigit
      match rest.drop ds.length with
      | '.' :: c3 :: _ => if isPySpace c3 then some (ws.length, true) else none
      | _ => none
    else none
  | _ => none

/-- The table heuristic: the line contains a pipe and its first non-space
character is a pipe. -/
def isTableStart (line : Str) : Bool :=
  line.contains '|' &&
    (match pyLstrip line with
     | c :: _ => c == '|'
     | [] => false)

/-- line.strip() is empty. -/
def isBlank (line : Str) : Bool := (pyStrip line).isEmpty

/-- BlockParser._is_other_block_start. -/
def isOtherBlockStart (line : Str) : Bool :=
  isFence line || (headingLevel line).isSome || isQuote line || isHr line ||
    isTableStart line

/-- The paragraph-terminating starters tested in _parse_paragraph's loop. -/
def isParaBreak (line : Str) : Bool :=
  isFence line || (headingLevel line).isSome || (listMarker line).isSome ||
    isQuote line || isHr line || isTableStart line

/-- Word characters of the slug regex class. -/
def isWordChar (c : Char) : Bool := c.isAlphanum || c == '_'

/-- Collapse whitespace runs to single hyphens (re.sub of a whitespace run
by a hyphen); the flag records whether the previous character was
whitespace. -/
def collapseWsAux : Bool → Str → Str
  | _, [] => []
  | prevWs, c :: rest =>
    if isPySpace c then
      if prevWs then collapseWsAux true rest
      else '-' :: collapseWsAux true rest
    else c :: collapseWsAux false rest

/-- str.strip with the hyphen argument. -/
def stripDashes (s : Str) : Str :=
  ((s.dropWhile (· == '-')).reverse.dropWhile (· == '-')).reverse

/-- BlockParser.slugify: lowercase, drop characters that are neither word
characters, whitespace nor hyphens, collapse whitespace to single hyphens,
trim hyphens, defaulting to "section" when empty. -/
def slugify (s : Str) : Str :=
  let kept := (s.map Char.toLower).filter
    (fun c => isWordChar c || isPySpace c || c == '-')
  let trimmed := stripDashes (collapseWsAux false kept)
  if trimmed.isEmpty then ['s', 'e', 'c', 't', 'i', 'o', 'n'] else trimmed

/-- One decimal digit character. -/
def digitChar (d : Nat) : Char :=
  match d with
  | 0 => '0' | 1 => '1' | 2 => '2' | 3 => '3' | 4 => '4'
  | 5 => '5' | 6 => '6' | 7 => '7' | 8 => '8' | _ => '9'

/-- Decimal digits of a natural number (the embedding of str(n)); the first
argument is structural fuel, always called with enough. -/
def natDigitsCore : Nat → Nat → Str → Str
  | 0, _, acc => acc
  | fuel + 1, n, acc =>
    if n < 10 then digitChar n :: acc
    else natDigitsCore fuel (n / 10) (digitChar (n % 10) :: acc)

/-- str(n) for a natural number. -/
def natDigits (n : Nat) : Str := natDigitsCore (n + 1) n []

/-- BlockParser.context_id: join(path, "/") ++ "::" ++ type ++ ":" ++
str(idx_in_section). -/
def context_id (b : Block) : Str :=
  List.intercalate ['/'] b.path ++ [':', ':'] ++ b.kind ++ [':'] ++ natDigits b.idx

/-- The per-level slug counters of BlockParser (self.slug_counters),
as nested association lists. -/
abbrev SlugCounters := List (Nat × List (Str × Nat))

/-- Association-list update (dict assignment). -/
def setSlug (m : List (Str × Nat)) (s : Str) (v : Nat) : List (Str × Nat) :=
  match m with
  | [] => [(s, v)]
  | (k, w) :: rest => if k = s then (k, v) :: rest else (k, w) :: setSlug rest s v

/-- Per-level dict assignment. -/
def setLevel (cs : SlugCounters) (lv : Nat) (m : List (Str × Nat)) : SlugCounters :=
  match cs with
  | [] => [(lv, m)]
  | (k, w) :: rest => if k = lv then (k, m) :: rest else (k, w) :: setLevel rest lv m

/-- Dict lookup of a level's slug table. -/
def lookupLevel (cs : SlugCounters) (lv : Nat) : Option (List (Str × Nat)) :=
  (cs.find? (fun p => p.1 == lv)).map Prod.snd

/-- Dict lookup of a slug count. -/
def lookupSlug (m : List (Str × Nat)) (s : Str) : Option Nat :=
  (m.find? (fun p => p.1 == s)).map Prod.snd

/-- The slug-uniqueness step of _parse_heading: unseen base slugs are used
unmodified and recorded with count 0; seen ones are suffixed with the
incremented count; counters of all deeper levels are then discarded. -/
def headingSlug (cs : SlugCounters) (level : Nat) (base : Str) :
    Str × SlugCounters :=
  let m := (lookupLevel cs level).getD []
  match lookupSlug m base with
  | none =>
    (base, (setLevel cs level (setSlug m base 0)).filter
      (fun p => decide (p.1 ≤ level)))
  | some c =>
    (base ++ '-' :: natDigits (c + 1),
      (setLevel cs level (setSlug m base (c + 1))).filter
        (fun p => decide (p.1 ≤ level)))

/-- First non-blank index at or after i (the blank-skipping lookahead of
_parse_list). -/
def skipBlanksFrom (lines : List Str) (i : Nat) : Nat :=
  i + ((lines.drop i).takeWhile isBlank).length

/-- End index of _parse_code_block: scan for the closing fence, step past
it, clamp at the input length (an unterminated fence consumes to EOF). -/
def codeEnd (lines : List Str) (start : Nat) : Nat :=
  let fence := (pyStrip (lines.getD start [])).take 3
  let k := ((lines.drop (start + 1)).takeWhile
    (fun l => !startsWith fence (pyStrip l))).length
  min (start + 1 + k + 1) lines.length

/-- End index of _parse_blockquote. -/
def quoteEnd (lines : List Str) (start : Nat) : Nat :=
  start + 1 + ((lines.drop (start + 1)).takeWhile isQuote).length

/-- End index of _parse_table. -/
def tableEnd (lines : List Str) (start : Nat) : Nat :=
  start + 1 + ((lines.drop (start + 1)).takeWhile (fun l => l.contains '|')).length

/-- End index of _parse_paragraph. -/
def paraEnd (lines : List Str) (start : Nat) : Nat :=
  start + 1 + ((lines.drop (start + 1)).takeWhile
    (fun l => !isBlank l && !isParaBreak l)).length

/-- End index of the _parse_list while loop, from position i; the last
argument is structural fuel, always called with enough.  The branches
mirror the loop body: a same-or-deeper marker of compatible ordered-ness is
consumed; a blank line is consumed only when, after further blanks, another
compatible item follows; a non-blank line that starts no other block is
consumed when indented by base + 2 spaces or when it is an unindented
prose continuation (neither a marker nor starting with a hash). -/
def listEnd (lines : List Str) (baseIndent : Nat) (isOrdered : Bool) :
    Nat → Nat → Nat
  | i, 0 => i
  | i, fuel + 1 =>
    if i < lines.length then
      let line := lines.getD i []
      match listMarker line with
      | some (ind, ord) =>
        if ind == baseIndent && ord != isOrdered then i
        else if ind < baseIndent then i
        else listEnd lines baseIndent isOrdered (i + 1) fuel
      | none =>
        if isBlank line then
          let j := skipBlanksFrom lines (i + 1)
          if j < lines.length then
            match listMarker (lines.getD j []) with
            | some (nind, nord) =>
              if nind == baseIndent && nord != isOrdered then i
              else listEnd lines baseIndent isOrdered (i + 1) fuel
            | none => i
          else i
        else if !isOtherBlockStart line then
          if baseIndent < line.length &&
              startsWith (List.replicate (baseIndent + 2) ' ') line then
            listEnd lines baseIndent isOrdered (i + 1) fuel
          else if (listMarker line).isNone && !startsWith ['#'] line then
            listEnd lines baseIndent isOrdered (i + 1) fuel
          else i
        else i
    else i

/-- Build a block over lines[start:e]; the chunk accumulated by every
sub-parser is exactly the consumed slice, with each line rstripped of
trailing newlines except inside code blocks (raw).  idx_in_section is
assigned by the second pass. -/
def mkBlock (kind : Str) (lines : List Str) (start e : Nat) (path : List Str)
    (raw : Bool) : Block :=
  { kind := kind,
    text := if raw then joinNl (pySlice lines start e)
            else joinNl ((pySlice lines start e).map pyRstripNl),
    start := start, endIdx := e, path := path, idx := 0 }

/-- The main scan of segment_markdown: test block starters in the fixed
priority order (fence, heading, rule, quote, list, table, blank,
paragraph) and consume greedily.  The last argument is structural fuel,
always called with enough. -/
def segmentAux (lines : List Str) : Nat → List Str → SlugCounters → Nat → List Block
  | _, _, _, 0 => []
  | i, path, counters, fuel + 1 =>
    if i < lines.length then
      let line := lines.getD i []
      if isFence line then
        let e := codeEnd lines i
        mkBlock ['c','o','d','e'] lines i e path true ::
          segmentAux lines e path counters fuel
      else
        match headingLevel line with
        | some level =>
          let sc := headingSlug counters level
            (slugify (pyStrip (line.drop (hashRun line))))
          let path' := path.take (level - 1) ++ [sc.1]
          mkBlock ['h','e','a','d','i','n','g'] lines i (i + 1) path' false ::
            segmentAux lines (i + 1) path' sc.2 fuel
        | none =>
          if isHr line then
            mkBlock ['h','r'] lines i (i + 1) path false ::
              segmentAux lines (i + 1) path counters fuel
          else if isQuote line then
            let e := quoteEnd lines i
            mkBlock ['q','u','o','t','e'] lines i e path false ::
              segmentAux lines e path counters fuel
          else
            match listMarker line with
            | some im =>
              let e := listEnd lines im.1 im.2 (i + 1) (lines.length - i)
              mkBlock (if im.2 then ['o','l','i','s','t'] else ['u','l','i','s','t'])
                lines i e path false ::
                segmentAux lines e path counters fuel
            | none =>
              if isTableStart line then
                let e := tableEnd lines i
                mkBlock ['t','a','b','l','e'] lines i e path false ::
                  segmentAux lines e path counters fuel
              else if isBlank line then
                segmentAux lines (i + 1) path counters fuel
              else
                let e := paraEnd lines i
                mkBlock ['p','a','r','a'] lines i e path false ::
                  segmentAux lines e path counters fuel
    else []

/-- The running per-(path, kind) counters of _add_section_indices. -/
abbrev SectionCounters := List ((List Str × Str) × Nat)

/-- counters[key] = counters.get(key, 0) + 1, returning the new value. -/
def bumpSection (cs : SectionCounters) (key : List Str × Str) :
    Nat × SectionCounters :=
  match cs with
  | [] => (1, [(key, 1)])
  | (k, v) :: rest =>
    if k = key then (v + 1, (k, v + 1) :: rest)
    else
      let r := bumpSection rest key
      (r.1, (k, v) :: r.2)

/-- BlockParser._add_section_indices: assign idx_in_section as a running
per-(path, type) counter in document order. -/
def addIndices : SectionCounters → List Block → List Block
  | _, [] => []
  | cs, b :: rest =>
    let r := bumpSection cs (b.path, b.kind)
    { b with idx := r.1 - 1 } :: addIndices r.2 rest

/-- BlockParser.segment_markdown: scan, then assign section indices. -/
def segment_markdown (lines : List Str) : List Block :=
  addIndices [] (segmentAux lines 0 [] [] (lines.length + 1))

/-! ## Reconstructor (DocumentReconstructor) -/

/-- The per-block emission of rebuild_markdown's loop body: skip-kind blocks
and blocks without a non-obsolete entry carrying a non-empty msgstr copy
their original source lines; otherwise the entry's msgstr is split on
newlines and each piece is emitted with a trailing newline. -/
def blockEmission (skipTypes : List Str) (sourceLines : List Str)
    (po : List Entry) (cid : Block → Str) (b : Block) : Str :=
  let entry := po.find? (fun e => e.msgctxt == cid b && !e.obsolete)
  if b.kind ∈ skipTypes then (pySlice sourceLines b.start b.endIdx).flatten
  else
    match entry with
    | some e =>
      if !e.msgstr.isEmpty then
        ((splitNl e.msgstr).map (fun line => line ++ ['\n'])).flatten
      else (pySlice sourceLines b.start b.endIdx).flatten
    | none => (pySlice sourceLines b.start b.endIdx).flatten

/-- The block loop of rebuild_markdown: copy the untouched gap before each
block, emit the block, and track the position; trailing lines are copied
verbatim at the end. -/
def rebuildGo (skipTypes : List Str) (sourceLines : List Str) (po : List Entry)
    (cid : Block → Str) : Nat → List Block → Str
  | position, [] => (sourceLines.drop position).flatten
  | position, b :: rest =>
    (pySlice sourceLines position b.start).flatten ++
      blockEmission skipTypes sourceLines po cid b ++
      rebuildGo skipTypes sourceLines po cid b.endIdx rest

/-- DocumentReconstructor.rebuild_markdown (output as one character list;
source lines are given with their line terminators, as in the caller). -/
def rebuild_markdown (skipTypes : List Str) (sourceLines : List Str)
    (blocks : List Block) (po : List Entry) (cid : Block → Str) : Str :=
  rebuildGo skipTypes sourceLines po cid 0 blocks

/-! ## MarkdownProcessor helpers -/

/-- MarkdownProcessor.SKIP_TYPES. -/
def SKIP_TYPES : List Str := [['h', 'r']]

/-- Leftmost occurrence of pat in s at offset ≥ the accumulated index
(helper for str.find). -/
def strFindAux (pat : Str) : Str → Nat → Option Nat
  | [], i => if startsWith pat [] then some i else none
  | c :: rest, i =>
    if startsWith pat (c :: rest) then some i
    else strFindAux pat rest (i + 1)

/-- str.find(pat, start): leftmost absolute index of pat at or after start,
none when absent. -/
def strFind (s pat : Str) (start : Nat) : Option Nat :=
  (strFindAux pat (s.drop start) 0).map (· + start)

/-- MarkdownProcessor._extract_block_type_from_msgctxt: the slice of the
context id between the first "::" and the next ":". -/
def extract_block_type_from_msgctxt (m : Str) : Str :=
  if m.isEmpty then []
  else
    match strFind m [':', ':'] 0 with
    | none => []
    | some st =>
      match strFind m [':'] (st + 2) with
      | none => []
      | some en => (m.take en).drop (st + 2)

/-- The scan invariant of segment_markdown from cursor i: every block lies
in [i, n) with a positive extent and starts at a non-empty line, its text is
the newline-join of its line range (for newline-free input lines), blocks
are ordered and disjoint, and every line the blocks leave uncovered is
blank. -/
def SegInv (lines : List Str) (i : Nat) (B : List Block) : Prop :=
  (∀ b ∈ B,
    (i ≤ b.start ∧ b.start < b.endIdx ∧ b.endIdx ≤ lines.length) ∧
    lines.getD b.start [] ≠ [] ∧
    ((∀ l ∈ lines, '\n' ∉ l) →
      b.text = joinNl (pySlice lines b.start b.endIdx))) ∧
  B.Pairwise (fun a b => a.endIdx ≤ b.start) ∧
  (∀ j, i ≤ j → j < lines.length →
    (∀ b ∈ B, j < b.start ∨ b.endIdx ≤ j) →
    isBlank (lines.getD j []) = true)

/-! ## Similarity (ReferencePool over difflib.SequenceMatcher, no junk;
the pool strings stay far below the autojunk threshold) -/

/-- Length of the common run at the heads of two strings. -/
def commonRun : Str → Str → Nat
  | x :: xs, y :: ys => if x = y then commonRun xs ys + 1 else 0
  | _, _ => 0

/-- Length of the matching block starting at (i, j), truncated to the
windows ending at ahi and bhi. -/
def runLen (a b : Str) (ahi bhi i j : Nat) : Nat :=
  min (commonRun (a.drop i) (b.drop j)) (min (ahi - i) (bhi - j))

/-- Inner scan of find_longest_match: j ascends over the b-window, keeping
the best (start in a, start in b, size) block under a strict improvement
test.  The first argument is the number of remaining j steps. -/
def lmInner (a b : Str) (ahi bhi i : Nat) :
    Nat → Nat → Nat → Nat → Nat → Nat × Nat × Nat
  | 0, _, bi, bj, bk => (bi, bj, bk)
  | fuel + 1, j, bi, bj, bk =>
    if bk < runLen a b ahi bhi i j then
      lmInner a b ahi bhi i fuel (j + 1) i j (runLen a b ahi bhi i j)
    else lmInner a b ahi bhi i fuel (j + 1) bi bj bk

/-- Outer scan of find_longest_match: i ascends over the a-window. -/
def lmOuter (a b : Str) (ahi bhi blo : Nat) :
    Nat → Nat → Nat → Nat → Nat → Nat × Nat × Nat
  | 0, _, bi, bj, bk => (bi, bj, bk)
  | fuel + 1, i, bi, bj, bk =>
    match lmInner a b ahi bhi i (bhi - blo) blo bi bj bk with
    | (bi2, bj2, bk2) => lmOuter a b ahi bhi blo fuel (i + 1) bi2 bj2 bk2

/-- find_longest_match with no junk: among the maximal matching blocks of
the window, the one starting earliest in a, then earliest in b (CPython's
ascending scan with a strict improvement test returns exactly this). -/
def longestMatch (a b : Str) (alo ahi blo bhi : Nat) : Nat × Nat × Nat :=
  lmOuter a b ahi bhi blo (ahi - alo) alo alo blo 0

/-- Total matched size of get_matching_blocks' divide-and-recurse (only the
sum matters for the score); the first argument is structural fuel, always
called with enough. -/
def matchTotal (a b : Str) : Nat → Nat → Nat → Nat → Nat → Nat
  | 0, _, _, _, _ => 0
  | fuel + 1, alo, ahi, blo, bhi =>
    let m := longestMatch a b alo ahi blo bhi
    if m.2.2 = 0 then 0
    else matchTotal a b fuel alo m.1 blo m.2.1 + m.2.2 +
      matchTotal a b fuel (m.1 + m.2.2) ahi (m.2.1 + m.2.2) bhi

/-- SequenceMatcher.ratio as an exact rational 2 M / (len a + len b), and 1
for two empty strings (the float division of the original is modelled
exactly). -/
def simScore (a b : Str) : ℚ :=
  if a.length + b.length = 0 then 1
  else mkRat (2 * matchTotal a b (a.length + b.length + 1) 0 a.length 0 b.length)
    (a.length + b.length)

/-- Stable insertion into a list sorted by descending key: the new element
goes before the first entry whose key is not larger. -/
def insertDescBy {α : Type} (key : α → ℚ) (x : α) : List α → List α
  | [] => [x]
  | y :: ys => if key y ≤ key x then x :: y :: ys else y :: insertDescBy key x ys

/-- Stable descending sort by key.  Python's list.sort with reverse=True is
a stable descending sort, and the stable descending order of a list is
unique, so this insertion sort computes the same list. -/
def sortDescBy {α : Type} (key : α → ℚ) : List α → List α
  | [] => []
  | x :: xs => insertDescBy key x (sortDescBy key xs)

/-- ReferencePool.find_similar over the pool's pair list: score every pair
whose source is not exactly the query, sort by score descending (stable),
truncate to max_results and return the pairs. -/
def find_similar (pairs : List (Str × Str)) (maxResults : Nat) (query : Str) :
    List (Str × Str) :=
  if pairs.isEmpty then []
  else
    ((sortDescBy Prod.fst ((pairs.filter (fun p => p.1 ≠ query)).map
        (fun p => (simScore query p.1, p)))).take maxResults).map Prod.snd

/-- The scored list annotated with each pair's insertion index, for stating
the tie-break ordering. -/
def scoredIdx (pairs : List (Str × Str)) (query : Str) :
    List (ℚ × Nat × (Str × Str)) :=
  ((pairs.enum).filter (fun p => p.2.1 ≠ query)).map
    (fun p => (simScore query p.2.1, p.1, p.2))

/-! ## Theorems -/

theorem updateFirst_length (p : Entry → Bool) (f : Entry → Entry) (po : List Entry) :
    (updateFirst p f po).length = po.length := by
  induction po with
  | nil => rfl
  | cons e rest ih =>
    simp only [updateFirst]
    by_cases h : p e <;> simp [h, ih]

theorem findCtx_updateFirst (ctx : Str) (f : Entry → Entry) (po : List Entry)
    (e : Entry) (h : findCtx po ctx = some e)
    (hf : ∀ x, (f x).msgctxt = x.msgctxt) :
    findCtx (updateFirst (fun x => x.msgctxt == ctx) f po) ctx = some (f e) := by
  induction po with
  | nil => simp [findCtx] at h
  | cons x rest ih =>
    simp only [updateFirst]
    by_cases hx : (x.msgctxt == ctx) = true
    · rw [if_pos hx]
      simp only [findCtx, List.find?_cons, hx] at h
      injection h with h
      subst h
      have hfx : ((f x).msgctxt == ctx) = true := by rw [hf]; exact hx
      simp [findCtx, List.find?_cons, hfx]
    · rw [if_neg hx]
      have hx' : (x.msgctxt == ctx) = false := by simpa using hx
      simp only [findCtx, List.find?_cons, hx'] at h
      simp only [findCtx, List.find?_cons, hx']
      exact ih h

theorem entriesFor_updateFirst (ctx c : Str) (f : Entry → Entry) (po : List Entry)
    (hc : c ≠ ctx) (hf : ∀ x, (f x).msgctxt = x.msgctxt) :
    entriesFor (updateFirst (fun x => x.msgctxt == ctx) f po) c = entriesFor po c := by
  induction po with
  | nil => rfl
  | cons x rest ih =>
    simp only [updateFirst]
    by_cases hx : (x.msgctxt == ctx) = true
    · have hmc : x.msgctxt = ctx := by simpa [beq_iff_eq] using hx
      have hxc : (x.msgctxt == c) = false := by
        simp only [hmc, beq_eq_false_iff_ne]
        exact hc.symm
      have hfc : ((f x).msgctxt == c) = false := by rw [hf]; exact hxc
      rw [if_pos hx]
      simp [entriesFor, List.filter_cons, hxc, hfc]
    · rw [if_neg hx]
      simp only [entriesFor, List.filter_cons] at ih ⊢
      cases hxc : x.msgctxt == c <;> simp [hxc, ih]

/-- C2: one pass of the sync loop over a single block resolves the block by
its context id exactly as the spec describes: an absent context id inserts a
fresh entry with empty msgstr and no fuzzy flag; a skip-kind block only
overwrites msgid, never touching msgstr or the fuzzy flag; an unchanged
non-skip block is a no-op; a changed non-skip block overwrites msgid, sets
fuzzy, and retains msgstr; entries under other context ids are never
touched. -/
theorem sync_po_resolves_blocks (skipTypes : List Str) (cid : Block → Str)
    (po : List Entry) (b : Block) :
    (findCtx po (cid b) = none →
       syncBlock skipTypes cid po b = po ++ [⟨cid b, b.text, [], false, false⟩]) ∧
    (∀ e, findCtx po (cid b) = some e → b.kind ∈ skipTypes →
       findCtx (syncBlock skipTypes cid po b) (cid b) =
         some ⟨cid b, b.text, e.msgstr, e.fuzzy, e.obsolete⟩ ∧
       (syncBlock skipTypes cid po b).length = po.length ∧
       ∀ c, c ≠ cid b →
         entriesFor (syncBlock skipTypes cid po b) c = entriesFor po c) ∧
    (∀ e, findCtx po (cid b) = some e → b.kind ∉ skipTypes → e.msgid = b.text →
       syncBlock skipTypes cid po b = po) ∧
    (∀ e, findCtx po (cid b) = some e → b.kind ∉ skipTypes → e.msgid ≠ b.text →
       findCtx (syncBlock skipTypes cid po b) (cid b) =
         some ⟨cid b, b.text, e.msgstr, true, e.obsolete⟩ ∧
       (syncBlock skipTypes cid po b).length = po.length ∧
       ∀ c, c ≠ cid b →
         entriesFor (syncBlock skipTypes cid po b) c = entriesFor po c) := by
  refine ⟨?_, ?_, ?_, ?_⟩
  · intro h
    simp [syncBlock, h]
  · intro e he hskip
    have hctx : e.msgctxt = cid b := by
      have := List.find?_some he
      simpa [beq_iff_eq] using this
    have hred : syncBlock skipTypes cid po b =
        updateFirst (fun x => x.msgctxt == cid b)
          (fun x => { x with msgid := b.text }) po := by
      simp [syncBlock, he, hskip]
    have hmk : (fun x => { x with msgid := b.text }) e =
        (⟨cid b, b.text, e.msgstr, e.fuzzy, e.obsolete⟩ : Entry) := by
      cases e; simp_all
    refine ⟨?_, ?_, ?_⟩
    · rw [hred,
        findCtx_updateFirst (cid b) (fun x => { x with msgid := b.text }) po e he
          (fun x => rfl)]
      exact congrArg some hmk
    · rw [hred]; exact updateFirst_length _ _ _
    · intro c hcne
      rw [hred]
      exact entriesFor_updateFirst (cid b) c _ po hcne (fun x => rfl)
  · intro e he hskip heq
    simp [syncBlock, he, hskip, heq]
  · intro e he hskip hne
    have hctx : e.msgctxt = cid b := by
      have := List.find?_some he
      simpa [beq_iff_eq] using this
    have hred : syncBlock skipTypes cid po b =
        updateFirst (fun x => x.msgctxt == cid b)
          (fun x => { x with msgid := b.text, fuzzy := true }) po := by
      simp [syncBlock, he, hskip, hne]
    have hmk : (fun x => { x with msgid := b.text, fuzzy := true }) e =
        (⟨cid b, b.text, e.msgstr, true, e.obsolete⟩ : Entry) := by
      cases e; simp_all
    refine ⟨?_, ?_, ?_⟩
    · rw [hred,
        findCtx_updateFirst (cid b) (fun x => { x with msgid := b.text, fuzzy := true })
          po e he (fun x => rfl)]
      exact congrArg some hmk
    · rw [hred]; exact updateFirst_length _ _ _
    · intro c hcne
      rw [hred]
      exact entriesFor_updateFirst (cid b) c _ po hcne (fun x => rfl)

/-- Witness for C2: syncing a fresh paragraph block into an empty catalog
inserts exactly one pending entry with empty msgstr and no fuzzy flag. -/
theorem sync_po_resolves_blocks_witness :
    syncBlock [] (fun b => b.kind) [] ⟨['p'], ['h','i'], 0, 1, [], 0⟩ =
      [⟨['p'], ['h','i'], [], false, false⟩] :=
  (sync_po_resolves_blocks [] (fun b => b.kind) []
    ⟨['p'], ['h','i'], 0, 1, [], 0⟩).1 rfl

theorem updateFirst_map {α : Type} (g : Entry → α) (p : Entry → Bool)
    (f : Entry → Entry) (po : List Entry) (hg : ∀ x, g (f x) = g x) :
    (updateFirst p f po).map g = po.map g := by
  induction po with
  | nil => rfl
  | cons x rest ih =>
    simp only [updateFirst]
    by_cases h : p x = true
    · rw [if_pos h]; simp [hg]
    · rw [if_neg h]; simp [ih]

theorem syncBlock_map_of_found (skipTypes : List Str) (cid : Block → Str)
    (po : List Entry) (b : Block) (h : cid b ∈ po.map Entry.msgctxt) :
    (syncBlock skipTypes cid po b).map Entry.msgctxt = po.map Entry.msgctxt ∧
    (syncBlock skipTypes cid po b).map Entry.obsolete = po.map Entry.obsolete := by
  obtain ⟨e, he, hec⟩ := List.mem_map.mp h
  have hsome : (findCtx po (cid b)).isSome := by
    rw [findCtx, List.find?_isSome]
    exact ⟨e, he, by simp [hec]⟩
  obtain ⟨e', hfe⟩ := Option.isSome_iff_exists.mp hsome
  simp only [syncBlock, hfe]
  by_cases hskip : b.kind ∈ skipTypes
  · rw [if_pos hskip]
    exact ⟨updateFirst_map _ _ _ _ (fun x => rfl), updateFirst_map _ _ _ _ (fun x => rfl)⟩
  · rw [if_neg hskip]
    by_cases hne : e'.msgid ≠ b.text
    · rw [if_pos hne]
      exact ⟨updateFirst_map _ _ _ _ (fun x => rfl), updateFirst_map _ _ _ _ (fun x => rfl)⟩
    · rw [if_neg hne]
      exact ⟨rfl, rfl⟩

theorem syncLoop_map (skipTypes : List Str) (cid : Block → Str)
    (blocks : List Block) (po : List Entry)
    (h : ∀ b ∈ blocks, cid b ∈ po.map Entry.msgctxt) :
    (blocks.foldl (syncBlock skipTypes cid) po).map Entry.msgctxt =
      po.map Entry.msgctxt ∧
    (blocks.foldl (syncBlock skipTypes cid) po).map Entry.obsolete =
      po.map Entry.obsolete := by
  induction blocks generalizing po with
  | nil => exact ⟨rfl, rfl⟩
  | cons b rest ih =>
    have hb := h b (by simp)
    have hstep := syncBlock_map_of_found skipTypes cid po b hb
    have hrest : ∀ x ∈ rest, cid x ∈ (syncBlock skipTypes cid po b).map Entry.msgctxt := by
      intro x hx
      rw [hstep.1]
      exact h x (by simp [hx])
    have := ih (syncBlock skipTypes cid po b) hrest
    simp only [List.foldl_cons]
    exact ⟨this.1.trans hstep.1, this.2.trans hstep.2⟩

theorem countP_mem_eraseOne {α : Type} [DecidableEq α] (P S1 S2 : List α) (ck : α)
    (hnodP : P.Nodup) (hckpre : ck ∉ S1) (hckpost : ck ∉ S2) (hckP : ck ∈ P) :
    (∀ c, c ∈ P ↔ c ∈ S1 ++ ck :: S2) →
    P.countP (fun c => decide (c ∈ S1 ++ S2)) = P.length - 1 := by
  intro hmem
  have h1 : P.countP (fun c => decide (c ∈ S1 ++ S2))
      = P.countP (fun c => decide (c ≠ ck)) := by
    apply List.countP_congr
    intro c hc
    simp only [decide_eq_true_eq]
    constructor
    · intro hcS
      rcases List.mem_append.mp hcS with h | h
      · exact fun hceq => hckpre (hceq ▸ h)
      · exact fun hceq => hckpost (hceq ▸ h)
    · intro hne
      rcases List.mem_append.mp ((hmem c).mp hc) with h | h
      · exact List.mem_append.mpr (Or.inl h)
      · rcases List.mem_cons.mp h with h | h
        · exact absurd h hne
        · exact List.mem_append.mpr (Or.inr h)
  rw [h1, (List.perm_cons_erase hckP).countP_eq]
  rw [List.countP_cons]
  have hall : ∀ a ∈ P.erase ck, (fun c => decide (c ≠ ck)) a = true := by
    intro a ha
    have := (hnodP.mem_erase_iff.mp ha).1
    simpa using this
  rw [List.countP_eq_length.mpr hall, List.length_erase_of_mem hckP]
  simp

/-- C3: after one sync_po call, every surviving entry is keyed by the
context id of some block (entries keyed by context ids absent from the
block list are marked obsolete and purged within the same call); and
starting from a reconciled catalog (non-obsolete entries with distinct
context ids exactly matching the blocks'), re-reconciling with exactly one
block removed shrinks the catalog by exactly one entry. -/
theorem sync_po_purges_missing (skipTypes : List Str) (cid : Block → Str)
    (po : List Entry) (blocks : List Block) :
    (∀ e ∈ sync_po skipTypes po blocks cid, e.msgctxt ∈ blocks.map cid) ∧
    (∀ (pre post : List Block) (bk : Block),
       blocks = pre ++ bk :: post →
       (blocks.map cid).Nodup →
       (po.map Entry.msgctxt).Nodup →
       (∀ e ∈ po, e.obsolete = false) →
       (∀ c, c ∈ po.map Entry.msgctxt ↔ c ∈ blocks.map cid) →
       (sync_po skipTypes po (pre ++ post) cid).length = po.length - 1) := by
  constructor
  · intro e he
    simp only [sync_po, List.mem_filter, Bool.and_eq_true, decide_eq_true_eq] at he
    exact he.2.1
  · intro pre post bk hsplit hnodS hnodP hobs hmem
    subst hsplit
    have hpresent : ∀ b ∈ pre ++ post, cid b ∈ po.map Entry.msgctxt := by
      intro b hb
      rw [hmem]
      rcases List.mem_append.mp hb with h | h
      · exact List.mem_map_of_mem cid (by simp [h])
      · exact List.mem_map_of_mem cid (by simp [h])
    have hmaps := syncLoop_map skipTypes cid (pre ++ post) po hpresent
    have hobs1 : ∀ e ∈ (pre ++ post).foldl (syncBlock skipTypes cid) po,
        e.obsolete = false := by
      intro e he
      have hmm : e.obsolete ∈
          ((pre ++ post).foldl (syncBlock skipTypes cid) po).map Entry.obsolete :=
        List.mem_map_of_mem _ he
      rw [hmaps.2] at hmm
      obtain ⟨x, hx, hxe⟩ := List.mem_map.mp hmm
      rw [← hxe]; exact hobs x hx
    have hfilter : sync_po skipTypes po (pre ++ post) cid
        = ((pre ++ post).foldl (syncBlock skipTypes cid) po).filter
            (fun e => decide (e.msgctxt ∈ (pre ++ post).map cid)) := by
      simp only [sync_po]
      apply List.filter_congr
      intro e he
      simp [hobs1 e he]
    rw [hfilter, ← List.countP_eq_length_filter]
    have hmapP : ((pre ++ post).foldl (syncBlock skipTypes cid) po).countP
          (fun e => decide (e.msgctxt ∈ (pre ++ post).map cid))
        = (po.map Entry.msgctxt).countP (fun c => decide (c ∈ (pre ++ post).map cid)) := by
      rw [← hmaps.1, List.countP_map]
      rfl
    rw [hmapP]
    -- split the nodup of the full ctx list
    have hmapsplit : (pre ++ bk :: post).map cid
        = pre.map cid ++ cid bk :: post.map cid := by simp
    rw [hmapsplit] at hnodS hmem
    obtain ⟨hn1, hn2, hdisj⟩ := List.nodup_append.mp hnodS
    have hckpre : cid bk ∉ pre.map cid := fun h => hdisj h (by simp)
    have hckpost : cid bk ∉ post.map cid := (List.nodup_cons.mp hn2).1
    have hckP : cid bk ∈ po.map Entry.msgctxt := (hmem (cid bk)).mpr (by simp)
    have hres := countP_mem_eraseOne (po.map Entry.msgctxt) (pre.map cid)
      (post.map cid) (cid bk) hnodP hckpre hckpost hckP hmem
    have hS2 : (pre ++ post).map cid = pre.map cid ++ post.map cid := by simp
    rw [hS2]
    simpa using hres

/-- Witness for C3: a two-entry reconciled catalog shrinks to one entry when
one of the two blocks is removed and the document is re-reconciled. -/
theorem sync_po_purges_missing_witness :
    (sync_po [] [⟨['a'], ['x'], [], false, false⟩, ⟨['b'], ['y'], [], false, false⟩]
        [⟨['a'], ['x'], 0, 1, [], 0⟩] (fun b => b.kind)).length = 1 := by
  have h := (sync_po_purges_missing [] (fun b => b.kind)
      [⟨['a'], ['x'], [], false, false⟩, ⟨['b'], ['y'], [], false, false⟩]
      [⟨['a'], ['x'], 0, 1, [], 0⟩, ⟨['b'], ['y'], 1, 2, [], 0⟩]).2
      [⟨['a'], ['x'], 0, 1, [], 0⟩] [] ⟨['b'], ['y'], 1, 2, [], 0⟩ rfl (by decide)
      (by decide) (by decide) (fun c => Iff.rfl)
  simpa using h

theorem mem_updateFirst (p : Entry → Bool) (f : Entry → Entry) (po : List Entry)
    (e : Entry) (he : e ∈ updateFirst p f po) :
    e ∈ po ∨ ∃ x ∈ po, e = f x := by
  induction po with
  | nil => simp [updateFirst] at he
  | cons x rest ih =>
    simp only [updateFirst] at he
    by_cases hx : p x = true
    · rw [if_pos hx] at he
      rcases List.mem_cons.mp he with h | h
      · exact Or.inr ⟨x, by simp, h⟩
      · exact Or.inl (by simp [h])
    · rw [if_neg hx] at he
      rcases List.mem_cons.mp he with h | h
      · exact Or.inl (by simp [h])
      · rcases ih h with h' | ⟨y, hy, hey⟩
        · exact Or.inl (by simp [h'])
        · exact Or.inr ⟨y, by simp [hy], hey⟩

theorem updateFirst_eq_self (p : Entry → Bool) (f : Entry → Entry) (po : List Entry)
    (e : Entry) (hfind : po.find? p = some e) (hfe : f e = e) :
    updateFirst p f po = po := by
  induction po with
  | nil => rfl
  | cons x rest ih =>
    simp only [updateFirst]
    by_cases hx : p x = true
    · rw [if_pos hx]
      simp only [List.find?_cons, hx] at hfind
      injection hfind with hfind
      rw [hfind, hfe]
    · rw [if_neg hx]
      have hx' : p x = false := by simpa using hx
      simp only [List.find?_cons, hx'] at hfind
      rw [ih hfind]

theorem findCtx_updateFirst_other (c' ctx : Str) (f : Entry → Entry)
    (po : List Entry) (hne : c' ≠ ctx) (hf : ∀ x, (f x).msgctxt = x.msgctxt) :
    findCtx (updateFirst (fun x => x.msgctxt == c') f po) ctx = findCtx po ctx := by
  induction po with
  | nil => rfl
  | cons x rest ih =>
    simp only [updateFirst]
    by_cases hx : (x.msgctxt == c') = true
    · rw [if_pos hx]
      have hxc : x.msgctxt = c' := by simpa [beq_iff_eq] using hx
      have h1 : ((f x).msgctxt == ctx) = false := by
        rw [hf, hxc]; simpa [beq_eq_false_iff_ne] using hne
      have h2 : (x.msgctxt == ctx) = false := by
        rw [hxc]; simpa [beq_eq_false_iff_ne] using hne
      simp only [findCtx, List.find?_cons, h1, h2]
    · rw [if_neg hx]
      simp only [findCtx, List.find?_cons] at ih ⊢
      cases hxc : x.msgctxt == ctx <;> simp [hxc, ih]

theorem findCtx_syncBlock_other (skipTypes : List Str) (cid : Block → Str)
    (po : List Entry) (b : Block) (ctx : Str) (hne : cid b ≠ ctx) :
    findCtx (syncBlock skipTypes cid po b) ctx = findCtx po ctx := by
  cases hfe : findCtx po (cid b) with
  | none =>
    simp only [syncBlock, hfe]
    simp only [findCtx, List.find?_append]
    have h0 : List.find? (fun e : Entry => e.msgctxt == ctx)
        ([⟨cid b, b.text, [], false, false⟩] : List Entry) = none := by
      have hb : ((cid b : Str) == ctx) = false := by
        simpa [beq_eq_false_iff_ne] using hne
      simp [List.find?_cons, hb]
    rw [h0]
    cases List.find? (fun e => e.msgctxt == ctx) po <;> rfl
  | some e =>
    simp only [syncBlock, hfe]
    by_cases hskip : b.kind ∈ skipTypes
    · rw [if_pos hskip]
      exact findCtx_updateFirst_other (cid b) ctx _ po hne (fun x => rfl)
    · rw [if_neg hskip]
      by_cases hmi : e.msgid ≠ b.text
      · rw [if_pos hmi]
        exact findCtx_updateFirst_other (cid b) ctx _ po hne (fun x => rfl)
      · rw [if_neg hmi]

theorem findCtx_syncBlock_self (skipTypes : List Str) (cid : Block → Str)
    (po : List Entry) (b : Block) :
    ∃ e, findCtx (syncBlock skipTypes cid po b) (cid b) = some e ∧
      e.msgid = b.text := by
  cases hfe : findCtx po (cid b) with
  | none =>
    refine ⟨⟨cid b, b.text, [], false, false⟩, ?_, rfl⟩
    simp only [syncBlock, hfe]
    simp only [findCtx, List.find?_append]
    simp only [findCtx] at hfe
    rw [hfe]
    simp [List.find?_cons]
  | some e =>
    simp only [syncBlock, hfe]
    by_cases hskip : b.kind ∈ skipTypes
    · rw [if_pos hskip]
      exact ⟨_, findCtx_updateFirst (cid b) _ po e hfe (fun x => rfl), rfl⟩
    · rw [if_neg hskip]
      by_cases hmi : e.msgid ≠ b.text
      · rw [if_pos hmi]
        exact ⟨_, findCtx_updateFirst (cid b) _ po e hfe (fun x => rfl), rfl⟩
      · rw [if_neg hmi]
        exact ⟨e, hfe, by simpa using hmi⟩

theorem syncBlock_preserves_nonobsolete (skipTypes : List Str) (cid : Block → Str)
    (po : List Entry) (b : Block) (h : ∀ e ∈ po, e.obsolete = false) :
    ∀ e ∈ syncBlock skipTypes cid po b, e.obsolete = false := by
  intro e he
  cases hfe : findCtx po (cid b) with
  | none =>
    simp only [syncBlock, hfe] at he
    rcases List.mem_append.mp he with h1 | h1
    · exact h e h1
    · simp only [List.mem_singleton] at h1
      rw [h1]
  | some e' =>
    simp only [syncBlock, hfe] at he
    by_cases hskip : b.kind ∈ skipTypes
    · rw [if_pos hskip] at he
      rcases mem_updateFirst _ _ po e he with h1 | ⟨x, hx, hex⟩
      · exact h e h1
      · rw [hex]; exact h x hx
    · rw [if_neg hskip] at he
      by_cases hmi : e'.msgid ≠ b.text
      · rw [if_pos hmi] at he
        rcases mem_updateFirst _ _ po e he with h1 | ⟨x, hx, hex⟩
        · exact h e h1
        · rw [hex]; exact h x hx
      · rw [if_neg hmi] at he
        exact h e he

theorem syncLoop_preserves_nonobsolete (skipTypes : List Str) (cid : Block → Str)
    (blocks : List Block) (po : List Entry) (h : ∀ e ∈ po, e.obsolete = false) :
    ∀ e ∈ blocks.foldl (syncBlock skipTypes cid) po, e.obsolete = false := by
  induction blocks generalizing po with
  | nil => exact h
  | cons b rest ih =>
    simp only [List.foldl_cons]
    exact ih _ (syncBlock_preserves_nonobsolete skipTypes cid po b h)

theorem syncLoop_findCtx_other (skipTypes : List Str) (cid : Block → Str)
    (rest : List Block) (po : List Entry) (ctx : Str)
    (h : ∀ b ∈ rest, cid b ≠ ctx) :
    findCtx (rest.foldl (syncBlock skipTypes cid) po) ctx = findCtx po ctx := by
  induction rest generalizing po with
  | nil => rfl
  | cons b bs ih =>
    simp only [List.foldl_cons]
    rw [ih _ (fun x hx => h x (by simp [hx]))]
    exact findCtx_syncBlock_other skipTypes cid po b ctx (h b (by simp))

theorem syncLoop_findCtx (skipTypes : List Str) (cid : Block → Str)
    (blocks : List Block) (po : List Entry)
    (hnod : (blocks.map cid).Nodup) (b : Block) (hb : b ∈ blocks) :
    ∃ e, findCtx (blocks.foldl (syncBlock skipTypes cid) po) (cid b) = some e ∧
      e.msgid = b.text := by
  induction blocks generalizing po with
  | nil => cases hb
  | cons b0 rest ih =>
    simp only [List.foldl_cons]
    rcases List.mem_cons.mp hb with h | h
    · subst h
      obtain ⟨e, he, hm⟩ := findCtx_syncBlock_self skipTypes cid po b
      refine ⟨e, ?_, hm⟩
      have hnb : ∀ x ∈ rest, cid x ≠ cid b := by
        intro x hx hcx
        have : cid b ∈ rest.map cid := by
          rw [← hcx]; exact List.mem_map_of_mem cid hx
        exact (List.nodup_cons.mp (by simpa using hnod)).1 this
      rw [syncLoop_findCtx_other skipTypes cid rest _ (cid b) hnb]
      exact he
    · exact ih (syncBlock skipTypes cid po b0)
        (List.Nodup.of_cons (by simpa using hnod)) h

theorem syncBlock_eq_self (skipTypes : List Str) (cid : Block → Str)
    (po : List Entry) (b : Block) (e : Entry)
    (hfe : findCtx po (cid b) = some e) (hm : e.msgid = b.text) :
    syncBlock skipTypes cid po b = po := by
  simp only [syncBlock, hfe]
  by_cases hskip : b.kind ∈ skipTypes
  · rw [if_pos hskip]
    refine updateFirst_eq_self _ _ po e hfe ?_
    cases e; simp_all
  · rw [if_neg hskip]
    rw [if_neg (by simpa using hm)]

theorem find?_filter_of_imp {α : Type} (l : List α) (p q : α → Bool)
    (h : ∀ x ∈ l, p x = true → q x = true) :
    (l.filter q).find? p = l.find? p := by
  induction l with
  | nil => rfl
  | cons x rest ih =>
    rw [List.filter_cons]
    by_cases hq : q x = true
    · rw [if_pos hq]
      simp only [List.find?_cons]
      cases hp : p x
      · exact ih (fun y hy => h y (by simp [hy]))
      · rfl
    · rw [if_neg hq]
      have hp : p x = false := by
        cases hpx : p x
        · rfl
        · exact absurd (h x (by simp) hpx) hq
      simp only [List.find?_cons, hp]
      exact ih (fun y hy => h y (by simp [hy]))

/-- C9 (amended): for a catalog holding no obsolete entries and a block list
with pairwise-distinct context ids, reconciliation is idempotent: the second
sync_po call returns the catalog unchanged, so all aggregate status counts
(total, processed, fuzzy, unprocessed, obsolete) agree after the first and
after the second call. -/
theorem sync_po_idempotent (skipTypes : List Str) (cid : Block → Str)
    (po : List Entry) (blocks : List Block)
    (hobs : ∀ e ∈ po, e.obsolete = false)
    (hnod : (blocks.map cid).Nodup) :
    sync_po skipTypes (sync_po skipTypes po blocks cid) blocks cid
      = sync_po skipTypes po blocks cid ∧
    get_processing_stats
        (sync_po skipTypes (sync_po skipTypes po blocks cid) blocks cid)
      = get_processing_stats (sync_po skipTypes po blocks cid) := by
  have hq : ∀ b ∈ blocks,
      ∃ e, findCtx (sync_po skipTypes po blocks cid) (cid b) = some e ∧
        e.msgid = b.text := by
    intro b hb
    obtain ⟨e, he, hm⟩ := syncLoop_findCtx skipTypes cid blocks po hnod b hb
    refine ⟨e, ?_, hm⟩
    simp only [sync_po, findCtx]
    rw [find?_filter_of_imp]
    · exact he
    · intro x hx hpx
      have hctx : x.msgctxt = cid b := by simpa [beq_iff_eq] using hpx
      have hxin : x.msgctxt ∈ blocks.map cid := by
        rw [hctx]; exact List.mem_map_of_mem cid hb
      have hxobs : x.obsolete = false :=
        syncLoop_preserves_nonobsolete skipTypes cid blocks po hobs x hx
      simp [hxin, hxobs]
  have hloopgen : ∀ bs : List Block,
      (∀ b ∈ bs, ∃ e, findCtx (sync_po skipTypes po blocks cid) (cid b) = some e ∧
        e.msgid = b.text) →
      bs.foldl (syncBlock skipTypes cid) (sync_po skipTypes po blocks cid)
        = sync_po skipTypes po blocks cid := by
    intro bs hbs
    induction bs with
    | nil => rfl
    | cons b rest ih =>
      obtain ⟨e, he, hm⟩ := hbs b (by simp)
      simp only [List.foldl_cons,
        syncBlock_eq_self skipTypes cid (sync_po skipTypes po blocks cid) b e he hm]
      exact ih (fun x hx => hbs x (by simp [hx]))
  have hfil : (sync_po skipTypes po blocks cid).filter
      (fun e => decide (e.msgctxt ∈ blocks.map cid) && !e.obsolete)
        = sync_po skipTypes po blocks cid := by
    apply List.filter_eq_self.mpr
    intro a ha
    simp only [sync_po, List.mem_filter] at ha
    exact ha.2
  have hidem : sync_po skipTypes (sync_po skipTypes po blocks cid) blocks cid
      = sync_po skipTypes po blocks cid := by
    have hstep : sync_po skipTypes (sync_po skipTypes po blocks cid) blocks cid
        = (blocks.foldl (syncBlock skipTypes cid)
            (sync_po skipTypes po blocks cid)).filter
              (fun e => decide (e.msgctxt ∈ blocks.map cid) && !e.obsolete) := rfl
    rw [hstep, hloopgen blocks hq, hfil]
  exact ⟨hidem, by rw [hidem]⟩

/-- Witness for C9: a concrete one-paragraph document reconciled twice into
an initially empty catalog reports identical stats on both calls. -/
theorem sync_po_idempotent_witness :
    sync_po [] (sync_po [] [] [⟨['p'], ['h','i'], 0, 1, [], 0⟩] (fun b => b.kind))
        [⟨['p'], ['h','i'], 0, 1, [], 0⟩] (fun b => b.kind)
      = sync_po [] [] [⟨['p'], ['h','i'], 0, 1, [], 0⟩] (fun b => b.kind) :=
  (sync_po_idempotent [] (fun b => b.kind) [] [⟨['p'], ['h','i'], 0, 1, [], 0⟩]
    (by intro e he; cases he) (by decide)).1

/-- C9 counterexample: the claim quantifies over every catalog state, but a
catalog holding an obsolete entry whose context id matches a block breaks
idempotence: the first sync_po purges the matching obsolete entry (yielding
zero entries), while the second inserts a fresh one, so the aggregate counts
differ between the two calls. -/
theorem sync_po_idempotent_counterexample :
    get_processing_stats
        (sync_po [] (sync_po [] [⟨['c'], ['x'], [], false, true⟩]
            [⟨['p'], ['x'], 0, 1, [], 0⟩] (fun _ => ['c']))
          [⟨['p'], ['x'], 0, 1, [], 0⟩] (fun _ => ['c']))
      ≠ get_processing_stats
          (sync_po [] [⟨['c'], ['x'], [], false, true⟩]
            [⟨['p'], ['x'], 0, 1, [], 0⟩] (fun _ => ['c'])) := by
  decide
/-- C5 (amended): get_unprocessed_entries returns exactly the entries that
are not obsolete and have an empty msgstr or the fuzzy flag; the entry's
kind is not consulted, so a skip-set-kind entry (e.g. a horizontal rule)
with empty msgstr is returned as well. -/
theorem get_unprocessed_entries_spec (po : List Entry) (e : Entry) :
    e ∈ get_unprocessed_entries po ↔
      e ∈ po ∧ e.obsolete = false ∧ (e.msgstr = [] ∨ e.fuzzy = true) := by
  simp [get_unprocessed_entries, List.mem_filter, List.isEmpty_iff,
    Bool.not_eq_true', and_assoc]

/-- C5 counterexample: a non-obsolete horizontal-rule entry with empty
msgstr — exactly the state sync_po creates for every hr block — is returned
by get_unprocessed_entries, although its kind (recovered from the context
id) is in the skip set, which the claim says never happens. -/
theorem get_unprocessed_entries_counterexample :
    get_unprocessed_entries [⟨"::hr:0".data, "---".data, [], false, false⟩]
      = [⟨"::hr:0".data, "---".data, [], false, false⟩] ∧
    extract_block_type_from_msgctxt "::hr:0".data ∈ SKIP_TYPES := by
  exact ⟨by decide, by decide⟩

/-- C4 (amended): in rebuild_markdown's per-block emission, a block whose
kind is in the skip set, or with no non-obsolete entry under its context
id, or whose entry's msgstr is empty, contributes its original source
lines verbatim; any other block contributes its entry's msgstr split back
into lines — even when the entry carries the fuzzy flag, in which case the
stale previous msgstr (not the original source) is emitted. -/
theorem rebuild_markdown_fallback (skipTypes : List Str) (sourceLines : List Str)
    (po : List Entry) (cid : Block → Str) (b : Block) :
    ((b.kind ∈ skipTypes ∨
        po.find? (fun e => e.msgctxt == cid b && !e.obsolete) = none ∨
        (∃ e, po.find? (fun e => e.msgctxt == cid b && !e.obsolete) = some e ∧
          e.msgstr = [])) →
      blockEmission skipTypes sourceLines po cid b
        = (pySlice sourceLines b.start b.endIdx).flatten) ∧
    (∀ e, po.find? (fun e => e.msgctxt == cid b && !e.obsolete) = some e →
        b.kind ∉ skipTypes → e.msgstr ≠ [] →
      blockEmission skipTypes sourceLines po cid b
        = ((splitNl e.msgstr).map (fun line => line ++ ['\n'])).flatten) ∧
    rebuild_markdown skipTypes sourceLines [b] po cid
      = (pySlice sourceLines 0 b.start).flatten ++
        blockEmission skipTypes sourceLines po cid b ++
        (sourceLines.drop b.endIdx).flatten := by
  refine ⟨?_, ?_, rfl⟩
  · rintro (h | h | ⟨e, he, hme⟩)
    · simp [blockEmission, h]
    · by_cases hskip : b.kind ∈ skipTypes <;> simp [blockEmission, h, hskip]
    · by_cases hskip : b.kind ∈ skipTypes <;>
        simp [blockEmission, he, hme, hskip]
  · intro e he hskip hme
    have hne : e.msgstr.isEmpty = false := by
      simpa [List.isEmpty_iff] using hme
    simp [blockEmission, he, hskip, hne]

/-- Witness for C4: a horizontal rule with no catalog entry is emitted
verbatim by the reconstructor. -/
theorem rebuild_markdown_fallback_witness :
    blockEmission SKIP_TYPES ["---\n".data] [] context_id
        ⟨"hr".data, "---".data, 0, 1, [], 0⟩
      = "---\n".data := by
  have h := (rebuild_markdown_fallback SKIP_TYPES ["---\n".data] [] context_id
      ⟨"hr".data, "---".data, 0, 1, [], 0⟩).1 (Or.inl (by decide))
  simpa using h

/-- C4 counterexample: a fuzzy (stale) entry with a non-empty previous
msgstr is emitted as-is, not replaced by the original source line as the
claim states: the rebuilt document is "OLD", not "Hello". -/
theorem rebuild_markdown_fuzzy_counterexample :
    rebuild_markdown SKIP_TYPES ["Hello\n".data]
        [⟨"para".data, "Hello".data, 0, 1, [], 0⟩]
        [⟨"::para:0".data, "Hello".data, "OLD".data, true, false⟩] context_id
      = "OLD\n".data ∧ ("OLD\n".data : Str) ≠ "Hello\n".data := by
  exact ⟨by decide, by decide⟩

theorem digitChar_ne_colon (d : Nat) : digitChar d ≠ ':' := by
  unfold digitChar
  split <;> decide

theorem natDigitsCore_no_colon : ∀ (fuel n : Nat) (acc : Str),
    ':' ∉ acc → ':' ∉ natDigitsCore fuel n acc := by
  intro fuel
  induction fuel with
  | zero => intro n acc h; exact h
  | succ f ih =>
    intro n acc h
    simp only [natDigitsCore]
    by_cases hn : n < 10
    · rw [if_pos hn]
      intro hc
      rcases List.mem_cons.mp hc with hc | hc
      · exact digitChar_ne_colon n hc.symm
      · exact h hc
    · rw [if_neg hn]
      apply ih
      intro hc
      rcases List.mem_cons.mp hc with hc | hc
      · exact digitChar_ne_colon (n % 10) hc.symm
      · exact h hc

theorem natDigits_no_colon (n : Nat) : ':' ∉ natDigits n :=
  natDigitsCore_no_colon (n + 1) n [] (by simp)

theorem collapseWsAux_subset (c : Char) :
    ∀ (b : Bool) (l : Str), c ∈ collapseWsAux b l → c = '-' ∨ c ∈ l := by
  intro b l
  induction l generalizing b with
  | nil => intro h; simp [collapseWsAux] at h
  | cons x rest ih =>
    intro h
    simp only [collapseWsAux] at h
    by_cases hx : isPySpace x = true
    · rw [if_pos hx] at h
      by_cases hb : b = true
      · rw [if_pos hb] at h
        rcases ih true h with h' | h'
        · exact Or.inl h'
        · exact Or.inr (by simp [h'])
      · rw [if_neg hb] at h
        rcases List.mem_cons.mp h with h' | h'
        · exact Or.inl h'
        · rcases ih true h' with h'' | h''
          · exact Or.inl h''
          · exact Or.inr (by simp [h''])
    · rw [if_neg hx] at h
      rcases List.mem_cons.mp h with h' | h'
      · exact Or.inr (by simp [h'])
      · rcases ih false h' with h'' | h''
        · exact Or.inl h''
        · exact Or.inr (by simp [h''])

theorem stripDashes_subset (c : Char) (s : Str) (h : c ∈ stripDashes s) : c ∈ s := by
  simp only [stripDashes] at h
  rw [List.mem_reverse] at h
  have h1 := List.dropWhile_sublist (l := (s.dropWhile (· == '-')).reverse)
    (p := (· == '-'))
  have h2 := h1.mem h
  rw [List.mem_reverse] at h2
  exact (List.dropWhile_sublist (l := s) (p := (· == '-'))).mem h2

theorem slugify_no_colon (s : Str) : ':' ∉ slugify s := by
  simp only [slugify]
  by_cases he : (stripDashes (collapseWsAux false
      ((s.map Char.toLower).filter (fun c => isWordChar c || isPySpace c || c == '-')))).isEmpty
  · rw [if_pos he]; decide
  · rw [if_neg he]
    intro hc
    have h1 := stripDashes_subset ':' _ hc
    rcases collapseWsAux_subset ':' false _ h1 with h2 | h2
    · exact absurd h2 (by decide)
    · have h3 := List.of_mem_filter h2
      exact absurd h3 (by decide)

theorem headingSlug_no_colon (cs : SlugCounters) (level : Nat) (base : Str)
    (hb : ':' ∉ base) : ':' ∉ (headingSlug cs level base).1 := by
  simp only [headingSlug]
  cases lookupSlug ((lookupLevel cs level).getD []) base with
  | none => exact hb
  | some c =>
    intro hc
    rcases List.mem_append.mp hc with h | h
    · exact hb h
    · rcases List.mem_cons.mp h with h | h
      · exact absurd h (by decide)
      · exact natDigits_no_colon (c + 1) h

/-- The blocks' idx field erased, for relating the two parser passes. -/
def stripIdx (b : Block) : Block := { b with idx := 0 }

theorem addIndices_stripIdx : ∀ (cs : SectionCounters) (bs : List Block),
    (addIndices cs bs).map stripIdx = bs.map stripIdx := by
  intro cs bs
  induction bs generalizing cs with
  | nil => rfl
  | cons b rest ih =>
    simp only [addIndices, List.map_cons]
    exact congrArg₂ _ rfl (ih _)

theorem mem_addIndices (cs : SectionCounters) (bs : List Block) (b : Block)
    (hb : b ∈ addIndices cs bs) : ∃ a ∈ bs, stripIdx a = stripIdx b := by
  have h1 : stripIdx b ∈ (addIndices cs bs).map stripIdx := List.mem_map_of_mem _ hb
  rw [addIndices_stripIdx] at h1
  obtain ⟨a, ha, hab⟩ := List.mem_map.mp h1
  exact ⟨a, ha, hab⟩

/-- The eight block kinds segment_markdown can emit. -/
def blockKinds : List Str :=
  [['h','e','a','d','i','n','g'], ['p','a','r','a'], ['u','l','i','s','t'],
   ['o','l','i','s','t'], ['q','u','o','t','e'], ['t','a','b','l','e'],
   ['c','o','d','e'], ['h','r']]

theorem segmentAux_kinds (lines : List Str) : ∀ (fuel i : Nat) (path : List Str)
    (counters : SlugCounters),
    (∀ p ∈ path, ':' ∉ p) →
    ∀ b ∈ segmentAux lines i path counters fuel,
      b.kind ∈ blockKinds ∧ ∀ p ∈ b.path, ':' ∉ p := by
  intro fuel
  induction fuel with
  | zero => intro i path counters hp b hb; simp [segmentAux] at hb
  | succ f ih =>
    intro i path counters hp b hb
    simp only [segmentAux] at hb
    by_cases hi : i < lines.length
    · rw [if_pos hi] at hb
      by_cases hf : isFence (lines.getD i []) = true
      · rw [if_pos hf] at hb
        rcases List.mem_cons.mp hb with h | h
        · subst h; exact ⟨by simp [blockKinds, mkBlock], by simpa [mkBlock] using hp⟩
        · exact ih _ _ _ hp b h
      · rw [if_neg hf] at hb
        cases hh : headingLevel (lines.getD i []) with
        | some level =>
          rw [hh] at hb
          have hp' : ∀ p ∈ path.take (level - 1) ++
              [(headingSlug counters level
                (slugify (pyStrip ((lines.getD i []).drop
                  (hashRun (lines.getD i [])))))).1], ':' ∉ p := by
            intro p hmem
            rcases List.mem_append.mp hmem with h | h
            · exact hp p (List.mem_of_mem_take h)
            · rcases List.mem_cons.mp h with h | h
              · rw [h]
                exact headingSlug_no_colon _ _ _ (slugify_no_colon _)
              · simp at h
          rcases List.mem_cons.mp hb with h | h
          · subst h
            exact ⟨by simp [blockKinds, mkBlock], by simpa [mkBlock] using hp'⟩
          · exact ih _ _ _ hp' b h
        | none =>
          rw [hh] at hb
          by_cases hhr : isHr (lines.getD i []) = true
          · rw [if_pos hhr] at hb
            rcases List.mem_cons.mp hb with h | h
            · subst h; exact ⟨by simp [blockKinds, mkBlock], by simpa [mkBlock] using hp⟩
            · exact ih _ _ _ hp b h
          · rw [if_neg hhr] at hb
            by_cases hq : isQuote (lines.getD i []) = true
            · rw [if_pos hq] at hb
              rcases List.mem_cons.mp hb with h | h
              · subst h; exact ⟨by simp [blockKinds, mkBlock], by simpa [mkBlock] using hp⟩
              · exact ih _ _ _ hp b h
            · rw [if_neg hq] at hb
              cases hl : listMarker (lines.getD i []) with
              | some im =>
                rw [hl] at hb
                rcases List.mem_cons.mp hb with h | h
                · subst h
                  constructor
                  · cases im.2 <;> simp [blockKinds, mkBlock]
                  · simpa [mkBlock] using hp
                · exact ih _ _ _ hp b h
              | none =>
                rw [hl] at hb
                by_cases ht : isTableStart (lines.getD i []) = true
                · rw [if_pos ht] at hb
                  rcases List.mem_cons.mp hb with h | h
                  · subst h; exact ⟨by simp [blockKinds, mkBlock], by simpa [mkBlock] using hp⟩
                  · exact ih _ _ _ hp b h
                · rw [if_neg ht] at hb
                  by_cases hbl : isBlank (lines.getD i []) = true
                  · rw [if_pos hbl] at hb
                    exact ih _ _ _ hp b hb
                  · rw [if_neg hbl] at hb
                    rcases List.mem_cons.mp hb with h | h
                    · subst h; exact ⟨by simp [blockKinds, mkBlock], by simpa [mkBlock] using hp⟩
                    · exact ih _ _ _ hp b h
    · rw [if_neg hi] at hb
      simp at hb

theorem strFindAux_append_of_not_mem (pc : Char) (pr P s : Str)
    (hP : pc ∉ P) : ∀ i, strFindAux (pc :: pr) (P ++ s) i
      = strFindAux (pc :: pr) s (i + P.length) := by
  induction P with
  | nil => intro i; simp
  | cons c P' ih =>
    intro i
    have hne : pc ≠ c := fun h => hP (by simp [h])
    simp only [List.cons_append, strFindAux]
    rw [if_neg (by simp [startsWith, List.isPrefixOf, hne])]
    show strFindAux (pc :: pr) (P' ++ s) (i + 1) = _
    rw [ih (fun h => hP (by simp [h])) (i + 1)]
    congr 1
    simp only [List.length_cons]
    omega

theorem strFindAux_self (pc : Char) (pr s : Str) (i : Nat) :
    strFindAux (pc :: pr) ((pc :: pr) ++ s) i = some i := by
  have hsw : startsWith (pc :: pr) (pc :: List.append pr s) = true := by
    rw [startsWith, List.isPrefixOf_iff_prefix]
    exact List.prefix_append (pc :: pr) s
  simp only [List.cons_append, strFindAux]
  rw [if_pos hsw]

theorem extract_block_type_append (P kind d : Str)
    (hP : ':' ∉ P) (hk : ':' ∉ kind) :
    extract_block_type_from_msgctxt (P ++ [':', ':'] ++ kind ++ [':'] ++ d)
      = kind := by
  have hmne : (P ++ [':', ':'] ++ kind ++ [':'] ++ d) ≠ [] := by
    cases P <;> simp
  have hie : (P ++ [':', ':'] ++ kind ++ [':'] ++ d).isEmpty = false := by
    simp [List.isEmpty_iff, hmne]
  have hfind1 : strFind (P ++ [':', ':'] ++ kind ++ [':'] ++ d) [':', ':'] 0
      = some P.length := by
    simp only [strFind, List.drop_zero]
    have harr : P ++ [':', ':'] ++ kind ++ [':'] ++ d
        = P ++ ([':', ':'] ++ (kind ++ [':'] ++ d)) := by simp
    rw [harr, strFindAux_append_of_not_mem ':' [':'] P _ hP 0,
      strFindAux_self ':' [':'] _ _]
    simp
  have hdrop : (P ++ [':', ':'] ++ kind ++ [':'] ++ d).drop (P.length + 2)
      = kind ++ [':'] ++ d := by
    have harr : P ++ [':', ':'] ++ kind ++ [':'] ++ d
        = (P ++ [':', ':']) ++ (kind ++ [':'] ++ d) := by simp
    rw [harr, List.drop_left' (by simp)]
  have hfind2 : strFind (P ++ [':', ':'] ++ kind ++ [':'] ++ d) [':']
      (P.length + 2) = some (kind.length + (P.length + 2)) := by
    simp only [strFind, hdrop]
    have harr : kind ++ [':'] ++ d = kind ++ ([':'] ++ d) := by simp
    rw [harr, strFindAux_append_of_not_mem ':' [] kind _ hk 0,
      strFindAux_self ':' [] _ _]
    simp [Nat.add_comm]
  have htake : (P ++ [':', ':'] ++ kind ++ [':'] ++ d).take
      (kind.length + (P.length + 2)) = (P ++ [':', ':']) ++ kind := by
    have harr : P ++ [':', ':'] ++ kind ++ [':'] ++ d
        = ((P ++ [':', ':']) ++ kind) ++ ([':'] ++ d) := by simp
    rw [harr, List.take_left' (by simp; omega)]
  simp only [extract_block_type_from_msgctxt, hie, Bool.false_eq_true, if_false,
    hfind1, hfind2]
  rw [htake, List.drop_left' (by simp)]

theorem intercalate_slash_no_colon : ∀ (L : List Str),
    (∀ p ∈ L, ':' ∉ p) → ':' ∉ List.intercalate ['/'] L := by
  intro L
  induction L with
  | nil => intro h; simp [List.intercalate]
  | cons x rest ih =>
    intro h
    cases rest with
    | nil =>
      simpa [List.intercalate] using h x (by simp)
    | cons y r =>
      have hx : List.intercalate ['/'] (x :: y :: r)
          = x ++ ['/'] ++ List.intercalate ['/'] (y :: r) := by
        simp [List.intercalate, List.intersperse]
      rw [hx]
      intro hc
      rcases List.mem_append.mp hc with h1 | h1
      · rcases List.mem_append.mp h1 with h2 | h2
        · exact h x (by simp) h2
        · exact absurd h2 (by decide)
      · exact ih (fun p hp => h p (by simp [hp])) h1

theorem blockKinds_no_colon (k : Str) (h : k ∈ blockKinds) : ':' ∉ k := by
  fin_cases h <;> decide

/-- C10: for every block produced by segment_markdown, extracting the block
type back out of its context id yields exactly the block's kind (also for
an empty heading path, whose id starts with "::"): slugify output never
contains a colon, so the first "::" of the id always separates the heading
path from the kind. -/
theorem extract_type_from_context_id (lines : List Str) :
    ∀ b ∈ segment_markdown lines,
      extract_block_type_from_msgctxt (context_id b) = b.kind := by
  intro b hb
  obtain ⟨a, ha, hab⟩ := mem_addIndices _ _ b hb
  have hinv := segmentAux_kinds lines _ 0 [] [] (by simp) a ha
  have hkind : a.kind = b.kind := by
    have := congrArg Block.kind hab
    simpa [stripIdx] using this
  have hpath : a.path = b.path := by
    have := congrArg Block.path hab
    simpa [stripIdx] using this

  rw [context_id]
  rw [extract_block_type_append (List.intercalate ['/'] b.path) b.kind
    (natDigits b.idx)
    (intercalate_slash_no_colon b.path (hpath ▸ hinv.2))
    (blockKinds_no_colon b.kind (hkind ▸ hinv.1))]

/-- Witness for C10: a concrete document exercising both an empty and a
non-empty heading path. -/
theorem extract_type_from_context_id_witness :
    (segment_markdown ["Intro".data, "# T".data, "- a".data]).map
        (fun b => extract_block_type_from_msgctxt (context_id b))
      = (segment_markdown ["Intro".data, "# T".data, "- a".data]).map Block.kind := by
  have h := extract_type_from_context_id ["Intro".data, "# T".data, "- a".data]
  exact List.map_congr_left h

theorem pyRstripNl_eq_self (l : Str) (h : '\n' ∉ l) : pyRstripNl l = l := by
  simp only [pyRstripNl]
  cases hr : l.reverse with
  | nil =>
    have hl : l = [] := by simpa using congrArg List.reverse hr
    simp [hl]
  | cons c t =>
    have hc : c ∈ l := by
      rw [← List.mem_reverse, hr]; simp
    have hcne : (c == '\n') = false := by
      simp only [beq_eq_false_iff_ne]
      exact fun hh => h (hh ▸ hc)
    rw [List.dropWhile_cons_of_neg (by simp [hcne]), ← hr, List.reverse_reverse]

theorem mem_pySlice (lines : List Str) (a b : Nat) (l : Str)
    (h : l ∈ pySlice lines a b) : l ∈ lines :=
  List.mem_of_mem_drop (List.mem_of_mem_take h)

theorem mkBlock_text (kind : Str) (lines : List Str) (start e : Nat)
    (path : List Str) (raw : Bool) (hnl : ∀ l ∈ lines, '\n' ∉ l) :
    (mkBlock kind lines start e path raw).text = joinNl (pySlice lines start e) := by
  simp only [mkBlock]
  cases raw with
  | true => rfl
  | false =>
    simp only [Bool.false_eq_true, if_false]
    congr 1
    rw [List.map_congr_left (g := id)
      (fun l hl => pyRstripNl_eq_self l (hnl l (mem_pySlice lines start e l hl)))]
    exact List.map_id _

theorem SegInv_nil (lines : List Str) (i : Nat) (hin : lines.length ≤ i) :
    SegInv lines i [] :=
  ⟨by simp, by simp, fun j hij hjn _ => absurd hjn (by omega)⟩

theorem SegInv_blank (lines : List Str) (i : Nat) (B : List Block)
    (hbl : isBlank (lines.getD i []) = true)
    (hB : SegInv lines (i + 1) B) : SegInv lines i B := by
  obtain ⟨h1, h2, h3⟩ := hB
  refine ⟨?_, h2, ?_⟩
  · intro b hb
    obtain ⟨⟨hs, hlt, hle⟩, hne, ht⟩ := h1 b hb
    exact ⟨⟨by omega, hlt, hle⟩, hne, ht⟩
  · intro j hij hjn hgap
    rcases Nat.eq_or_lt_of_le hij with heq | hlt
    · rw [← heq]; exact hbl
    · exact h3 j hlt hjn hgap

theorem SegInv_cons (lines : List Str) (i e : Nat) (hd : Block) (B : List Block)
    (hstart : hd.start = i) (hend : hd.endIdx = e)
    (hie : i < e) (hen : e ≤ lines.length)
    (hne : lines.getD i [] ≠ [])
    (htext : (∀ l ∈ lines, '\n' ∉ l) → hd.text = joinNl (pySlice lines i e))
    (hB : SegInv lines e B) : SegInv lines i (hd :: B) := by
  obtain ⟨h1, h2, h3⟩ := hB
  refine ⟨?_, ?_, ?_⟩
  · intro b hb
    rcases List.mem_cons.mp hb with h | h
    · subst h
      refine ⟨⟨by omega, by omega, by omega⟩, by rw [hstart]; exact hne, ?_⟩
      intro hnl
      rw [hstart, hend]
      exact htext hnl
    · obtain ⟨⟨hs, hlt, hle⟩, hne', ht⟩ := h1 b h
      exact ⟨⟨by omega, hlt, hle⟩, hne', ht⟩
  · rw [List.pairwise_cons]
    refine ⟨fun b hb => ?_, h2⟩
    rw [hend]
    exact (h1 b hb).1.1
  · intro j hij hjn hgap
    rcases Nat.lt_or_ge j e with hje | hje
    · rcases hgap hd (by simp) with h | h
      · rw [hstart] at h; omega
      · rw [hend] at h; omega
    · exact h3 j hje hjn (fun b hb => hgap b (by simp [hb]))

theorem codeEnd_bounds (lines : List Str) (i : Nat) (h : i < lines.length) :
    i < codeEnd lines i ∧ codeEnd lines i ≤ lines.length := by
  simp only [codeEnd]
  constructor
  · exact Nat.lt_min.mpr ⟨by omega, h⟩
  · exact Nat.min_le_right _ _

theorem takeWhileEnd_bounds (lines : List Str) (i : Nat) (p : Str → Bool)
    (h : i < lines.length) :
    i < i + 1 + ((lines.drop (i + 1)).takeWhile p).length ∧
    i + 1 + ((lines.drop (i + 1)).takeWhile p).length ≤ lines.length := by
  have hk : ((lines.drop (i + 1)).takeWhile p).length ≤ (lines.drop (i + 1)).length :=
    (List.takeWhile_sublist _).length_le
  rw [List.length_drop] at hk
  omega

theorem listEnd_bounds (lines : List Str) (bI : Nat) (o : Bool) :
    ∀ (fuel i : Nat), i ≤ listEnd lines bI o i fuel ∧
      (i ≤ lines.length → listEnd lines bI o i fuel ≤ lines.length) := by
  intro fuel
  induction fuel with
  | zero => intro i; exact ⟨le_rfl, fun h => h⟩
  | succ f ih =>
    intro i
    simp only [listEnd]
    by_cases hi : i < lines.length
    · rw [if_pos hi]
      obtain ⟨h1, h2⟩ := ih (i + 1)
      repeat' split
      all_goals first
        | exact ⟨le_rfl, fun h => h⟩
        | exact ⟨by omega, fun _ => h2 (by omega)⟩
    · rw [if_neg hi]
      exact ⟨le_rfl, fun h => h⟩

theorem segmentAux_inv (lines : List Str) : ∀ (fuel i : Nat) (path : List Str)
    (counters : SlugCounters), lines.length ≤ i + fuel →
    SegInv lines i (segmentAux lines i path counters fuel) := by
  intro fuel
  induction fuel with
  | zero =>
    intro i path counters hfuel
    exact SegInv_nil lines i (by omega)
  | succ f ih =>
    intro i path counters hfuel
    simp only [segmentAux]
    by_cases hi : i < lines.length
    · rw [if_pos hi]
      by_cases hf : isFence (lines.getD i []) = true
      · rw [if_pos hf]
        obtain ⟨he1, he2⟩ := codeEnd_bounds lines i hi
        refine SegInv_cons lines i (codeEnd lines i) _ _ rfl rfl he1 he2 ?_
          (fun hnl => mkBlock_text _ _ _ _ _ _ hnl) (ih _ _ _ (by omega))
        intro h0
        rw [h0] at hf
        exact absurd hf (by decide)
      · rw [if_neg hf]
        cases hh : headingLevel (lines.getD i []) with
        | some level =>
          refine SegInv_cons lines i (i + 1) _ _ rfl rfl (by omega) (by omega) ?_
            (fun hnl => mkBlock_text _ _ _ _ _ _ hnl) (ih _ _ _ (by omega))
          intro h0
          rw [h0] at hh
          rw [show headingLevel ([] : Str) = none from by decide] at hh
          simp at hh
        | none =>
          by_cases hhr : isHr (lines.getD i []) = true
          · rw [if_pos hhr]
            refine SegInv_cons lines i (i + 1) _ _ rfl rfl (by omega) (by omega) ?_
              (fun hnl => mkBlock_text _ _ _ _ _ _ hnl) (ih _ _ _ (by omega))
            intro h0
            rw [h0] at hhr
            exact absurd hhr (by decide)
          · rw [if_neg hhr]
            by_cases hq : isQuote (lines.getD i []) = true
            · rw [if_pos hq]
              obtain ⟨he1, he2⟩ := takeWhileEnd_bounds lines i isQuote hi
              refine SegInv_cons lines i (quoteEnd lines i) _ _ rfl rfl he1 he2 ?_
                (fun hnl => mkBlock_text _ _ _ _ _ _ hnl) (ih _ _ _ ?_)
              · intro h0
                rw [h0] at hq
                exact absurd hq (by decide)
              · have : i < quoteEnd lines i := he1
                omega
            · rw [if_neg hq]
              cases hl : listMarker (lines.getD i []) with
              | some im =>
                obtain ⟨hl1, hl2⟩ := listEnd_bounds lines im.1 im.2 (lines.length - i) (i + 1)
                have he1 : i < listEnd lines im.1 im.2 (i + 1) (lines.length - i) := by omega
                have he2 : listEnd lines im.1 im.2 (i + 1) (lines.length - i) ≤
                    lines.length := hl2 (by omega)
                refine SegInv_cons lines i
                  (listEnd lines im.1 im.2 (i + 1) (lines.length - i)) _ _ rfl rfl
                  he1 he2 ?_
                  (fun hnl => mkBlock_text _ _ _ _ _ _ hnl) (ih _ _ _ (by omega))
                intro h0
                rw [h0] at hl
                rw [show listMarker ([] : Str) = none from by decide] at hl
                simp at hl
              | none =>
                by_cases ht : isTableStart (lines.getD i []) = true
                · rw [if_pos ht]
                  obtain ⟨he1, he2⟩ := takeWhileEnd_bounds lines i
                    (fun l => l.contains '|') hi
                  refine SegInv_cons lines i (tableEnd lines i) _ _ rfl rfl he1 he2 ?_
                    (fun hnl => mkBlock_text _ _ _ _ _ _ hnl) (ih _ _ _ ?_)
                  · intro h0
                    rw [h0] at ht
                    exact absurd ht (by decide)
                  · have : i < tableEnd lines i := he1
                    omega
                · rw [if_neg ht]
                  by_cases hbl : isBlank (lines.getD i []) = true
                  · rw [if_pos hbl]
                    exact SegInv_blank lines i _ hbl (ih _ _ _ (by omega))
                  · rw [if_neg hbl]
                    obtain ⟨he1, he2⟩ := takeWhileEnd_bounds lines i
                      (fun l => !isBlank l && !isParaBreak l) hi
                    refine SegInv_cons lines i (paraEnd lines i) _ _ rfl rfl he1 he2 ?_
                      (fun hnl => mkBlock_text _ _ _ _ _ _ hnl) (ih _ _ _ ?_)
                    · intro h0
                      rw [h0] at hbl
                      exact absurd (by decide : isBlank ([] : Str) = true) hbl
                    · have : i < paraEnd lines i := he1
                      omega
    · rw [if_neg hi]
      exact SegInv_nil lines i (by omega)

theorem stripIdx_fields {a b : Block} (h : stripIdx a = stripIdx b) :
    a.kind = b.kind ∧ a.text = b.text ∧ a.start = b.start ∧ a.endIdx = b.endIdx ∧
    a.path = b.path := by
  refine ⟨?_, ?_, ?_, ?_, ?_⟩
  · have := congrArg Block.kind h; simpa [stripIdx] using this
  · have := congrArg Block.text h; simpa [stripIdx] using this
  · have := congrArg Block.start h; simpa [stripIdx] using this
  · have := congrArg Block.endIdx h; simpa [stripIdx] using this
  · have := congrArg Block.path h; simpa [stripIdx] using this

theorem SegInv_addIndices (lines : List Str) (i : Nat) (cs : SectionCounters)
    (A : List Block) (h : SegInv lines i A) : SegInv lines i (addIndices cs A) := by
  obtain ⟨h1, h2, h3⟩ := h
  have hmap : (addIndices cs A).map stripIdx = A.map stripIdx :=
    addIndices_stripIdx cs A
  refine ⟨?_, ?_, ?_⟩
  · intro b hb
    obtain ⟨a, ha, hab⟩ := mem_addIndices cs A b hb
    obtain ⟨_, htext, hstart, hend, _⟩ := stripIdx_fields hab
    obtain ⟨⟨hs, hlt, hle⟩, hne, ht⟩ := h1 a ha
    refine ⟨⟨by omega, by omega, by omega⟩, by rw [← hstart]; exact hne,
      fun hnl => ?_⟩
    rw [← htext, ← hstart, ← hend]
    exact ht hnl
  · have h2' : (A.map stripIdx).Pairwise
        (fun x y => x.endIdx ≤ y.start) := by
      rw [List.pairwise_map]
      exact h2
    rw [← hmap, List.pairwise_map] at h2'
    exact h2'
  · intro j hij hjn hgap
    apply h3 j hij hjn
    intro a ha
    have hmm : stripIdx a ∈ (addIndices cs A).map stripIdx := by
      rw [hmap]; exact List.mem_map_of_mem _ ha
    obtain ⟨b, hb, hba⟩ := List.mem_map.mp hmm
    obtain ⟨_, _, hstart, hend, _⟩ := stripIdx_fields hba
    rcases hgap b hb with h | h
    · exact Or.inl (hstart ▸ h)
    · exact Or.inr (hend ▸ h)

theorem segment_markdown_SegInv (lines : List Str) :
    SegInv lines 0 (segment_markdown lines) :=
  SegInv_addIndices lines 0 [] _
    (segmentAux_inv lines (lines.length + 1) 0 [] [] (by omega))

/-- C6: segment_markdown returns blocks in document order with disjoint,
order-preserving line ranges: every block satisfies
0 ≤ start < end ≤ number of lines, each earlier block ends no later than
any later block starts, and every line index not covered by any block's
range holds a blank line (no blank-line-only span becomes a block). -/
theorem segment_markdown_ranges (lines : List Str) :
    (∀ b ∈ segment_markdown lines, b.start < b.endIdx ∧ b.endIdx ≤ lines.length) ∧
    (segment_markdown lines).Pairwise (fun a b => a.endIdx ≤ b.start) ∧
    (∀ j, j < lines.length →
      (∀ b ∈ segment_markdown lines, j < b.start ∨ b.endIdx ≤ j) →
      isBlank (lines.getD j []) = true) := by
  obtain ⟨h1, h2, h3⟩ := segment_markdown_SegInv lines
  exact ⟨fun b hb => (h1 b hb).1.2, h2, fun j => h3 j (Nat.zero_le j)⟩

/-- Witness for C6 at a concrete three-line document with a gap. -/
theorem segment_markdown_ranges_witness :
    (∀ b ∈ segment_markdown ["# T".data, "".data, "hi".data],
      b.start < b.endIdx ∧ b.endIdx ≤ 3) ∧
    isBlank (["# T".data, "".data, "hi".data].getD 1 []) = true := by
  have h := segment_markdown_ranges ["# T".data, "".data, "hi".data]
  refine ⟨fun b hb => (h.1 b hb), ?_⟩
  exact h.2.2 1 (by decide) (by decide)

theorem slice_flatten_drop (src : List Str) (a b : Nat) (hab : a ≤ b) :
    (pySlice src a b).flatten ++ (src.drop b).flatten = (src.drop a).flatten := by
  rw [← List.flatten_append]
  congr 1
  rw [pySlice]
  have hd : src.drop b = (src.drop a).drop (b - a) := by
    rw [List.drop_drop]
    congr 1
    omega
  rw [hd, List.take_append_drop]

theorem rebuildGo_covers (skipTypes : List Str) (src : List Str) (po : List Entry)
    (cid : Block → Str) : ∀ (blocks : List Block) (pos : Nat),
    (∀ b ∈ blocks, pos ≤ b.start ∧ b.start ≤ b.endIdx) →
    blocks.Pairwise (fun a b => a.endIdx ≤ b.start) →
    (∀ b ∈ blocks, blockEmission skipTypes src po cid b
      = (pySlice src b.start b.endIdx).flatten) →
    rebuildGo skipTypes src po cid pos blocks = (src.drop pos).flatten := by
  intro blocks
  induction blocks with
  | nil => intro pos _ _ _; rfl
  | cons b rest ih =>
    intro pos hb hpw hem
    obtain ⟨hps, hse⟩ := hb b (by simp)
    simp only [rebuildGo]
    rw [hem b (by simp)]
    rw [ih b.endIdx
      (fun x hx => ⟨(List.pairwise_cons.mp hpw).1 x hx, (hb x (by simp [hx])).2⟩)
      (List.pairwise_cons.mp hpw).2
      (fun x hx => hem x (by simp [hx]))]
    rw [List.append_assoc, slice_flatten_drop src b.start b.endIdx hse,
      slice_flatten_drop src pos b.start hps]

theorem pySlice_map (f : Str → Str) (l : List Str) (a b : Nat) :
    pySlice (l.map f) a b = (pySlice l a b).map f := by
  simp [pySlice, List.map_drop, List.map_take]

theorem pySlice_ne_nil (l : List Str) (a b : Nat) (hab : a < b)
    (ha : a < l.length) : pySlice l a b ≠ [] := by
  have : (pySlice l a b).length = min (b - a) (l.length - a) := by
    simp [pySlice, List.length_take, List.length_drop]
  intro hnil
  rw [hnil] at this
  simp only [List.length_nil] at this
  omega

theorem pySlice_cons (l : List Str) (a b : Nat) (hab : a < b) (ha : a < l.length) :
    pySlice l a b = l.getD a [] :: pySlice l (a + 1) b := by
  simp only [pySlice]
  rw [List.drop_eq_getElem_cons ha]
  have hba : b - a = (b - (a + 1)) + 1 := by omega
  rw [hba, List.take_succ_cons]
  congr 1
  simp [List.getD, List.getElem?_eq_getElem ha]

theorem joinNl_ne_nil (x : Str) (t : List Str) (hx : x ≠ [] ∨ t ≠ []) :
    joinNl (x :: t) ≠ [] := by
  cases t with
  | nil =>
    simp only [joinNl, List.intercalate]
    simpa using hx
  | cons y r =>
    have : joinNl (x :: y :: r) = x ++ ['\n'] ++ joinNl (y :: r) := by
      simp [joinNl, List.intercalate, List.intersperse]
    rw [this]
    simp

theorem findCtx_complete (po : List Entry) (ctx : Str) (e0 : Entry)
    (huniq : ((po.filter (fun e => !e.obsolete)).map Entry.msgctxt).Nodup)
    (he0 : e0 ∈ po) (hctx : e0.msgctxt = ctx) (hobs : e0.obsolete = false) :
    ∃ y, po.find? (fun e => e.msgctxt == ctx && !e.obsolete) = some y ∧
      y.msgstr = e0.msgstr := by
  have hp0 : (fun e => e.msgctxt == ctx && !e.obsolete) e0 = true := by
    simp [hctx, hobs]
  have hsome : (po.find? (fun e => e.msgctxt == ctx && !e.obsolete)).isSome := by
    rw [List.find?_isSome]
    exact ⟨e0, he0, hp0⟩
  obtain ⟨y, hy⟩ := Option.isSome_iff_exists.mp hsome
  have hyp := List.find?_some hy
  have hymem := List.mem_of_find?_eq_some hy
  simp only [Bool.and_eq_true, beq_iff_eq, Bool.not_eq_true'] at hyp
  have hinj := List.inj_on_of_nodup_map huniq
  have hyf : y ∈ po.filter (fun e => !e.obsolete) :=
    List.mem_filter.mpr ⟨hymem, by simp [hyp.2]⟩
  have he0f : e0 ∈ po.filter (fun e => !e.obsolete) :=
    List.mem_filter.mpr ⟨he0, by simp [hobs]⟩
  have hye : y = e0 := hinj hyf he0f (by rw [hyp.1, hctx])
  exact ⟨y, hy, by rw [hye]⟩

/-- C1: round-trip.  For a document given as newline-free lines, rebuilding
with a catalog that holds (uniquely, per the catalog key invariant) a
non-obsolete, non-fuzzy entry per block of the segmentation whose msgstr
equals the block's source text reproduces the document byte-for-byte. -/
theorem rebuild_roundtrip (skipTypes : List Str) (lines : List Str)
    (po : List Entry) (hnl : ∀ l ∈ lines, '\n' ∉ l)
    (huniq : ((po.filter (fun e => !e.obsolete)).map Entry.msgctxt).Nodup)
    (hcomplete : ∀ b ∈ segment_markdown lines, ∃ e0 ∈ po,
      e0.msgctxt = context_id b ∧ e0.obsolete = false ∧ e0.fuzzy = false ∧
      e0.msgstr = b.text) :
    rebuild_markdown skipTypes (lines.map (fun l => l ++ ['\n']))
        (segment_markdown lines) po context_id
      = ((lines.map (fun l => l ++ ['\n']))).flatten := by
  obtain ⟨h1, h2, h3⟩ := segment_markdown_SegInv lines
  have hstep : rebuild_markdown skipTypes (lines.map (fun l => l ++ ['\n']))
      (segment_markdown lines) po context_id
      = rebuildGo skipTypes (lines.map (fun l => l ++ ['\n'])) po context_id 0
          (segment_markdown lines) := rfl
  rw [hstep, rebuildGo_covers skipTypes _ po context_id (segment_markdown lines) 0
    (fun b hb => ⟨Nat.zero_le _, le_of_lt (h1 b hb).1.2.1⟩) h2 ?_]
  · rw [List.drop_zero]
  · intro b hb
    obtain ⟨⟨_, hlt, hle⟩, hne, ht⟩ := h1 b hb
    have htext := ht hnl
    by_cases hskip : b.kind ∈ skipTypes
    · simp [blockEmission, hskip]
    · obtain ⟨e0, he0, hc1, hc2, hc3, hc4⟩ := hcomplete b hb
      obtain ⟨y, hy, hym⟩ := findCtx_complete po (context_id b) e0 huniq he0 hc1 hc2
      have hmsg : y.msgstr = b.text := by rw [hym, hc4]
      have hlen : b.start < lines.length := lt_of_lt_of_le hlt hle
      have htne : b.text ≠ [] := by
        rw [htext, pySlice_cons lines b.start b.endIdx hlt hlen]
        exact joinNl_ne_nil _ _ (Or.inl hne)
      have hye : y.msgstr.isEmpty = false := by
        rw [hmsg]
        simp [List.isEmpty_iff, htne]
      have hred : blockEmission skipTypes (lines.map (fun l => l ++ ['\n'])) po
          context_id b
          = ((splitNl y.msgstr).map (fun line => line ++ ['\n'])).flatten := by
        simp [blockEmission, hy, hskip, hye]
      rw [hred, hmsg, htext]
      have hsplit : splitNl (joinNl (pySlice lines b.start b.endIdx))
          = pySlice lines b.start b.endIdx := by
        rw [joinNl, splitNl]
        exact List.splitOn_intercalate _ '\n'
          (fun l hl => hnl l (mem_pySlice lines _ _ l hl))
          (pySlice_ne_nil lines _ _ hlt hlen)
      rw [hsplit, pySlice_map]

/-- Witness for C1: a concrete two-block document with a complete catalog
whose msgstr values equal the source texts round-trips byte-for-byte. -/
theorem rebuild_roundtrip_witness :
    rebuild_markdown [] (["# T".data, "".data, "hi".data].map (fun l => l ++ ['\n']))
        (segment_markdown ["# T".data, "".data, "hi".data])
        [⟨"t::heading:0".data, "# T".data, "# T".data, false, false⟩,
         ⟨"t::para:0".data, "hi".data, "hi".data, false, false⟩] context_id
      = ((["# T".data, "".data, "hi".data].map (fun l => l ++ ['\n']))).flatten := by
  exact rebuild_roundtrip [] ["# T".data, "".data, "hi".data]
    [⟨"t::heading:0".data, "# T".data, "# T".data, false, false⟩,
     ⟨"t::para:0".data, "hi".data, "hi".data, false, false⟩]
    (by decide) (by decide) (by decide)

theorem setSlug_lookup (m : List (Str × Nat)) (s : Str) (v : Nat) :
    lookupSlug (setSlug m s v) s = some v := by
  induction m with
  | nil => simp [setSlug, lookupSlug, List.find?]
  | cons kv rest ih =>
    obtain ⟨k, w⟩ := kv
    simp only [setSlug]
    by_cases hk : k = s
    · rw [if_pos hk]
      simp [lookupSlug, List.find?_cons, hk]
    · rw [if_neg hk]
      simp only [lookupSlug, List.find?_cons] at ih ⊢
      have : (k == s) = false := by simpa [beq_eq_false_iff_ne] using hk
      simp only [this, Bool.false_eq_true, if_false]
      exact ih

theorem setLevel_lookup (cs : SlugCounters) (lv : Nat) (m : List (Str × Nat)) :
    lookupLevel (setLevel cs lv m) lv = some m := by
  induction cs with
  | nil => simp [setLevel, lookupLevel, List.find?]
  | cons kv rest ih =>
    obtain ⟨k, w⟩ := kv
    simp only [setLevel]
    by_cases hk : k = lv
    · rw [if_pos hk]
      simp [lookupLevel, List.find?_cons, hk]
    · rw [if_neg hk]
      simp only [lookupLevel, List.find?_cons] at ih ⊢
      have : (k == lv) = false := by simpa [beq_eq_false_iff_ne] using hk
      simp only [this, Bool.false_eq_true, if_false]
      exact ih

theorem lookupLevel_filter_le (L : SlugCounters) (lv : Nat) :
    lookupLevel (L.filter (fun p => decide (p.1 ≤ lv))) lv = lookupLevel L lv := by
  simp only [lookupLevel]
  rw [find?_filter_of_imp]
  intro x _ hx
  have : x.1 = lv := by simpa [beq_iff_eq] using hx
  simp [this]

theorem lookupLevel_filter_gt (L : SlugCounters) (lv lv' : Nat) (h : lv < lv') :
    lookupLevel (L.filter (fun p => decide (p.1 ≤ lv))) lv' = none := by
  simp only [lookupLevel]
  rw [List.find?_eq_none.mpr]
  · rfl
  · intro x hx
    have h1 := List.of_mem_filter hx
    have h2 : x.1 ≤ lv := by simpa using h1
    simp only [beq_iff_eq]
    omega

/-- C7: the slug-uniqueness step of _parse_heading.  A base slug unseen at
its depth is used unmodified and recorded with count 0; an already-seen one
is suffixed with "-count" after incrementing; all counters of strictly
deeper levels are discarded; and concretely, two same-depth same-parent
headings both titled "Setup" yield slugs setup and setup-1. -/
theorem heading_slug_uniqueness (cs : SlugCounters) (level : Nat) (base : Str) :
    (lookupSlug ((lookupLevel cs level).getD []) base = none →
      (headingSlug cs level base).1 = base ∧
      lookupSlug ((lookupLevel (headingSlug cs level base).2 level).getD [])
        base = some 0) ∧
    (∀ c, lookupSlug ((lookupLevel cs level).getD []) base = some c →
      (headingSlug cs level base).1 = base ++ '-' :: natDigits (c + 1) ∧
      lookupSlug ((lookupLevel (headingSlug cs level base).2 level).getD [])
        base = some (c + 1)) ∧
    (∀ lv, level < lv → lookupLevel (headingSlug cs level base).2 lv = none) ∧
    (segment_markdown ["# Setup".data, "# Setup".data]).map Block.path
      = [["setup".data], ["setup-1".data]] := by
  refine ⟨?_, ?_, ?_, by decide⟩
  · intro h
    simp only [headingSlug, h]
    refine ⟨trivial, ?_⟩
    rw [lookupLevel_filter_le, setLevel_lookup]
    simp [setSlug_lookup]
  · intro c h
    simp only [headingSlug, h]
    refine ⟨trivial, ?_⟩
    rw [lookupLevel_filter_le, setLevel_lookup]
    simp [setSlug_lookup]
  · intro lv hlv
    simp only [headingSlug]
    cases lookupSlug ((lookupLevel cs level).getD []) base <;>
      exact lookupLevel_filter_gt _ level lv hlv

/-- Witness for C7: the unseen-slug case at an empty counter table. -/
theorem heading_slug_uniqueness_witness :
    (headingSlug [] 1 "setup".data).1 = "setup".data ∧
    lookupSlug ((lookupLevel (headingSlug [] 1 "setup".data).2 1).getD [])
      "setup".data = some 0 :=
  (heading_slug_uniqueness [] 1 "setup".data).1 rfl

theorem insertDescBy_perm {α : Type} (key : α → ℚ) (x : α) (l : List α) :
    List.Perm (insertDescBy key x l) (x :: l) := by
  induction l with
  | nil => exact List.Perm.refl _
  | cons y ys ih =>
    simp only [insertDescBy]
    by_cases h : key y ≤ key x
    · rw [if_pos h]
    · rw [if_neg h]
      exact (ih.cons y).trans (List.Perm.swap x y ys)

theorem sortDescBy_perm {α : Type} (key : α → ℚ) (l : List α) :
    List.Perm (sortDescBy key l) l := by
  induction l with
  | nil => exact List.Perm.refl _
  | cons x xs ih =>
    simp only [sortDescBy]
    exact (insertDescBy_perm key x (sortDescBy key xs)).trans (ih.cons x)

theorem insertDescBy_map {α β : Type} (key : α → ℚ) (key2 : β → ℚ) (f : α → β)
    (hf : ∀ x, key2 (f x) = key x) (x : α) (l : List α) :
    (insertDescBy key x l).map f = insertDescBy key2 (f x) (l.map f) := by
  induction l with
  | nil => rfl
  | cons y ys ih =>
    simp only [insertDescBy, List.map_cons]
    by_cases h : key y ≤ key x
    · rw [if_pos h, if_pos (by rw [hf, hf]; exact h)]
      rfl
    · rw [if_neg h, if_neg (by rw [hf, hf]; exact h)]
      rw [List.map_cons, ih]

theorem sortDescBy_map {α β : Type} (key : α → ℚ) (key2 : β → ℚ) (f : α → β)
    (hf : ∀ x, key2 (f x) = key x) (l : List α) :
    (sortDescBy key l).map f = sortDescBy key2 (l.map f) := by
  induction l with
  | nil => rfl
  | cons x xs ih =>
    simp only [sortDescBy, List.map_cons]
    rw [insertDescBy_map key key2 f hf, ih]

theorem insertDescBy_pairwise (x : ℚ × Nat × (Str × Str))
    (L : List (ℚ × Nat × (Str × Str)))
    (hL : L.Pairwise (fun u v => v.1 < u.1 ∨ (u.1 = v.1 ∧ u.2.1 < v.2.1)))
    (hidx : ∀ y ∈ L, x.2.1 < y.2.1) :
    (insertDescBy Prod.fst x L).Pairwise
      (fun u v => v.1 < u.1 ∨ (u.1 = v.1 ∧ u.2.1 < v.2.1)) := by
  induction L with
  | nil => simp [insertDescBy]
  | cons y ys ih =>
    simp only [insertDescBy]
    by_cases h : y.1 ≤ x.1
    · rw [if_pos h]
      rw [List.pairwise_cons]
      refine ⟨?_, hL⟩
      intro z hz
      rcases List.mem_cons.mp hz with hz | hz
      · subst hz
        rcases lt_or_eq_of_le h with hlt | heq
        · exact Or.inl hlt
        · exact Or.inr ⟨heq.symm, hidx z (by simp)⟩
      · rcases (List.pairwise_cons.mp hL).1 z hz with hlt | ⟨heq, _⟩
        · exact Or.inl (lt_of_lt_of_le hlt h)
        · rcases lt_or_eq_of_le h with hlt2 | heq2
          · exact Or.inl (heq ▸ hlt2)
          · exact Or.inr ⟨by rw [← heq2, heq], hidx z (by simp [hz])⟩
    · rw [if_neg h]
      rw [List.pairwise_cons]
      constructor
      · intro z hz
        rw [(insertDescBy_perm Prod.fst x ys).mem_iff] at hz
        rcases List.mem_cons.mp hz with hz | hz
        · subst hz
          exact Or.inl (lt_of_not_le h)
        · exact (List.pairwise_cons.mp hL).1 z hz
      · exact ih (List.pairwise_cons.mp hL).2 (fun y hy => hidx y (by simp [hy]))

theorem sortDescBy_pairwise (L : List (ℚ × Nat × (Str × Str)))
    (hidx : L.Pairwise (fun u v => u.2.1 < v.2.1)) :
    (sortDescBy Prod.fst L).Pairwise
      (fun u v => v.1 < u.1 ∨ (u.1 = v.1 ∧ u.2.1 < v.2.1)) := by
  induction L with
  | nil => simp [sortDescBy]
  | cons x xs ih =>
    simp only [sortDescBy]
    refine insertDescBy_pairwise x _ (ih (List.pairwise_cons.mp hidx).2) ?_
    intro y hy
    rw [(sortDescBy_perm Prod.fst xs).mem_iff] at hy
    exact (List.pairwise_cons.mp hidx).1 y hy

theorem enumFrom_fst_pairwise {α : Type} : ∀ (n : Nat) (l : List α),
    (l.enumFrom n).Pairwise (fun u v => u.1 < v.1) := by
  intro n l
  induction l generalizing n with
  | nil => simp
  | cons x xs ih =>
    rw [show (x :: xs).enumFrom n = (n, x) :: xs.enumFrom (n + 1) from rfl,
      List.pairwise_cons]
    refine ⟨?_, ih (n + 1)⟩
    intro p hp
    obtain ⟨i, y⟩ := p
    have := (List.mk_mem_enumFrom_iff_le_and_getElem?_sub.mp hp).1
    simpa using by omega

theorem enumFrom_filter_map_snd {α β : Type} (pred : α → Bool) (g : α → β) :
    ∀ (n : Nat) (l : List α),
      ((l.enumFrom n).filter (fun p => pred p.2)).map (fun p => g p.2)
        = (l.filter pred).map g := by
  intro n l
  induction l generalizing n with
  | nil => rfl
  | cons x xs ih =>
    rw [show (x :: xs).enumFrom n = (n, x) :: xs.enumFrom (n + 1) from rfl]
    rw [List.filter_cons, List.filter_cons]
    cases hp : pred x with
    | true => simp only [hp, if_pos, List.map_cons, ih]
    | false => simp only [hp, Bool.false_eq_true, if_false, ih]

set_option maxRecDepth 4000

theorem scoredIdx_proj (pairs : List (Str × Str)) (query : Str) :
    (scoredIdx pairs query).map (fun t => (t.1, t.2.2))
      = (pairs.filter (fun p => p.1 ≠ query)).map
          (fun p => (simScore query p.1, p)) := by
  simp only [scoredIdx, List.map_map]
  exact enumFrom_filter_map_snd (fun p => decide (p.1 ≠ query))
    (fun p => (simScore query p.1, p)) 0 pairs

theorem scoredIdx_idx_pairwise (pairs : List (Str × Str)) (query : Str) :
    (scoredIdx pairs query).Pairwise (fun u v => u.2.1 < v.2.1) := by
  simp only [scoredIdx]
  rw [List.pairwise_map]
  exact (enumFrom_fst_pairwise 0 pairs).filter _

/-- C8: on a non-empty pool, find_similar excludes every pair whose source
equals the query, draws its results from the pool, returns at most
max_results pairs, and equals the stable descending sort of the scored pool
truncated to max_results: the index-annotated sort is strictly ordered by
score descending with exact ties broken by ascending insertion index.  On
the spec's concrete pool the fox pair is ranked first. -/
theorem find_similar_spec (pairs : List (Str × Str)) (maxResults : Nat)
    (query : Str) (hne : pairs ≠ []) :
    (find_similar pairs maxResults query).length ≤ maxResults ∧
    (∀ p ∈ find_similar pairs maxResults query, p ∈ pairs ∧ p.1 ≠ query) ∧
    find_similar pairs maxResults query
      = ((sortDescBy Prod.fst (scoredIdx pairs query)).take maxResults).map
          (fun t => t.2.2) ∧
    (sortDescBy Prod.fst (scoredIdx pairs query)).Pairwise
      (fun u v => v.1 < u.1 ∨ (u.1 = v.1 ∧ u.2.1 < v.2.1)) ∧
    (find_similar [("the quick brown fox".data, "t1".data),
        ("completely different text".data, "t2".data)] 2
        "the quick brown cat".data).head?
      = some ("the quick brown fox".data, "t1".data) := by
  have hie : pairs.isEmpty = false := by simp [List.isEmpty_iff, hne]
  have hred : find_similar pairs maxResults query
      = ((sortDescBy Prod.fst ((pairs.filter (fun p => p.1 ≠ query)).map
          (fun p => (simScore query p.1, p)))).take maxResults).map Prod.snd := by
    simp [find_similar, hie]
  refine ⟨?_, ?_, ?_, ?_, by decide⟩
  · rw [hred, List.length_map]
    exact List.length_take_le _ _
  · intro p hp
    rw [hred] at hp
    obtain ⟨t, ht, htp⟩ := List.mem_map.mp hp
    have ht2 := List.mem_of_mem_take ht
    rw [(sortDescBy_perm Prod.fst _).mem_iff] at ht2
    obtain ⟨q, hq, hqt⟩ := List.mem_map.mp ht2
    have hq2 := List.mem_filter.mp hq
    have hpq : p = q := by
      rw [← htp, ← hqt]
    rw [hpq]
    exact ⟨hq2.1, by simpa using hq2.2⟩
  · rw [hred]
    have hmap : (sortDescBy Prod.fst (scoredIdx pairs query)).map
        (fun t : ℚ × Nat × (Str × Str) => (t.1, t.2.2))
        = sortDescBy Prod.fst ((pairs.filter (fun p => p.1 ≠ query)).map
            (fun p => (simScore query p.1, p))) := by
      rw [sortDescBy_map Prod.fst Prod.fst
        (fun t : ℚ × Nat × (Str × Str) => (t.1, t.2.2)) (fun x => rfl),
        scoredIdx_proj]
    rw [← hmap, ← List.map_take, List.map_map]
    rfl
  · exact sortDescBy_pairwise _ (scoredIdx_idx_pairwise pairs query)

/-- Witness for C8: the concrete fox pool is non-empty, and the theorem
bounds the result length there. -/
theorem find_similar_spec_witness :
    (find_similar [("the quick brown fox".data, "t1".data),
        ("completely different text".data, "t2".data)] 2
        "the quick brown cat".data).length ≤ 2 :=
  (find_similar_spec [("the quick brown fox".data, "t1".data),
      ("completely different text".data, "t2".data)] 2
      "the quick brown cat".data (by decide)).1
